import Mathlib

/-!
Verification of the factbook exporter's field-extraction, projection and
coverage-aggregation logic against its specification.

The Python sources are shallowly embedded: JSON documents become the
mutually inductive type `JVal`/`JArr`/`JObj`, Python dictionaries keep
their insertion-order semantics as association lists, fallible code
returns `Option`/`Except`, and rational arithmetic stands in for the
float arithmetic of the coverage percentages.
-/

mutual

/-- A JSON value as handled by the exporter (`dict`, `list`, `str`, `int`,
`bool`, `None` in the Python source).  Arrays and objects are separate
mutual inductives so that all recursions stay structural. -/
inductive JVal where
  | null : JVal
  | bool : Bool → JVal
  | int : Int → JVal
  | str : String → JVal
  | arr : JArr → JVal
  | obj : JObj → JVal
deriving DecidableEq

inductive JArr where
  | nil : JArr
  | cons : JVal → JArr → JArr
deriving DecidableEq

inductive JObj where
  | nil : JObj
  | cons : String → JVal → JObj → JObj
deriving DecidableEq

end

/-- First-match lookup in an object, the embedding of Python's `d[k]` /
`k in d` (Python dict keys are unique, so first match is the match). -/
def jobjGet : JObj → String → Option JVal
  | JObj.nil, _ => none
  | JObj.cons k v rest, key => if k = key then some v else jobjGet rest key

/-- The key list of an object, in insertion order. -/
def jobjKeys : JObj → List String
  | JObj.nil => []
  | JObj.cons k _ rest => k :: jobjKeys rest

mutual

/-- Python `repr` of a JSON value (what `str` shows for non-string values):
`None`, `True`/`False`, decimal integers, quoted strings, bracketed lists
and braced dicts. -/
def pyRepr : JVal → String
  | JVal.null => "None"
  | JVal.bool true => "True"
  | JVal.bool false => "False"
  | JVal.int n => toString n
  | JVal.str s => "\x27" ++ s ++ "\x27"
  | JVal.arr xs => "[" ++ pyReprArr xs ++ "]"
  | JVal.obj m => "\x7b" ++ pyReprObj m ++ "\x7d"

/-- Comma-separated `repr`s of the elements of a list. -/
def pyReprArr : JArr → String
  | JArr.nil => ""
  | JArr.cons v JArr.nil => pyRepr v
  | JArr.cons v rest => pyRepr v ++ ", " ++ pyReprArr rest

/-- Comma-separated `repr`s of the entries of a dict. -/
def pyReprObj : JObj → String
  | JObj.nil => ""
  | JObj.cons k v JObj.nil => "\x27" ++ k ++ "\x27: " ++ pyRepr v
  | JObj.cons k v rest => "\x27" ++ k ++ "\x27: " ++ pyRepr v ++ ", " ++ pyReprObj rest

end

/-- Python `str` of a JSON value: the string itself for strings, `repr`
otherwise. -/
def pyStr : JVal → String
  | JVal.str s => s
  | v => pyRepr v

/-! ### Python string primitives

`String.splitOn`, `trim`, `toUpper` and friends do not reduce inside the
kernel, so the Python string operations used by the sources are
re-implemented over `List Char`. -/

/-- The whitespace characters of Python's `str.strip` / `str.split`. -/
def pyIsSpace (c : Char) : Bool :=
  c = ' ' || c = '\t' || c = '\n' || c = '\r' || c = '\x0b' || c = '\x0c'

/-- Python `str.strip()`. -/
def pyStrip (s : String) : String :=
  String.mk (((s.toList.dropWhile pyIsSpace).reverse.dropWhile pyIsSpace).reverse)

/-- Split a character list at every occurrence of `sep`, keeping empty
segments, as Python's `str.split(sep)` does. -/
def splitCharOn (sep : Char) : List Char → List (List Char)
  | [] => [[]]
  | c :: cs =>
      let rest := splitCharOn sep cs
      if c = sep then [] :: rest
      else
        match rest with
        | [] => [[c]]
        | seg :: segs => (c :: seg) :: segs

/-- Python `path.split('.')`. -/
def pySplitDot (s : String) : List String :=
  (splitCharOn '.' s.toList).map String.mk

/-- Python `s1.startswith(s2)`. -/
def pyStartsWith (s pre : String) : Bool :=
  List.isPrefixOf pre.toList s.toList

/-- Python `s1.endswith(s2)`. -/
def pyEndsWith (s suf : String) : Bool :=
  List.isSuffixOf suf.toList s.toList

/-- ASCII uppercasing of one character, as Python's `str.upper` does for
the ASCII range the sources deal in. -/
def pyUpperChar (c : Char) : Char :=
  if 'a' ≤ c ∧ c ≤ 'z' then Char.ofNat (c.toNat - 32) else c

/-- ASCII lowercasing of one character. -/
def pyLowerChar (c : Char) : Char :=
  if 'A' ≤ c ∧ c ≤ 'Z' then Char.ofNat (c.toNat + 32) else c

/-- Python `s.upper()` (ASCII). -/
def pyUpper (s : String) : String :=
  String.mk (s.toList.map pyUpperChar)

/-- Python `s.lower()` (ASCII). -/
def pyLower (s : String) : String :=
  String.mk (s.toList.map pyLowerChar)

/-- Substring test, Python's `needle in hay` for strings (the empty
needle is contained in everything). -/
def charInfixOf : List Char → List Char → Bool
  | needle, [] => needle.isEmpty
  | needle, c :: cs => List.isPrefixOf needle (c :: cs) || charInfixOf needle cs

/-- Python `sub in s`. -/
def pyContains (s sub : String) : Bool :=
  charInfixOf sub.toList s.toList

/-- Replace the first occurrence of `old` by `new`, Python's
`s.replace(old, new, 1)`. -/
def replaceFirstChars (old new : List Char) : List Char → List Char
  | [] => if old.isEmpty then new else []
  | c :: cs =>
      if List.isPrefixOf old (c :: cs) then new ++ (c :: cs).drop old.length
      else c :: replaceFirstChars old new cs

/-- Python `s.replace(old, new, 1)`. -/
def pyReplaceFirst (s old new : String) : String :=
  String.mk (replaceFirstChars old.toList new.toList s.toList)

/-- The loop body of `DataParser.get_nested_value` (src/parser.py lines
36-46): walk the key list; at each step require the current value to be a
dict containing the key, otherwise return `None`. -/
def navKeys : JVal → List String → Option JVal
  | cur, [] => some cur
  | JVal.obj m, k :: ks =>
      match jobjGet m k with
      | some v => navKeys v ks
      | none => none
  | _, _ :: _ => none

/-- `DataParser.get_nested_value` (src/parser.py lines 24-50): split the
dotted path and navigate segment by segment.  The surrounding
`try/except` never fires because every step is total; the embedding is
accordingly a total function into `Option`. -/
def getNestedValue (data : JVal) (path : String) : Option JVal :=
  navKeys data (pySplitDot path)

/-- Specification-side navigation relation: `ResolvesTo data keys v` holds
when following `keys` from `data` through nested dicts reaches `v`. -/
inductive ResolvesTo : JVal → List String → JVal → Prop
  | nil (v : JVal) : ResolvesTo v [] v
  | cons {m : JObj} {k : String} {ks : List String} {w v : JVal} :
      jobjGet m k = some w → ResolvesTo w ks v → ResolvesTo (JVal.obj m) (k :: ks) v

/-! ### PathExtractor: the two coverage field-path extractors -/

/-- `SimpleCoverageAnalyzer._has_meaningful_value`
(src/scripts/analyze_coverage_simple.py lines 93-112): `None` is not
meaningful, strings must be non-blank after stripping, lists must be
non-empty, everything else (numbers, booleans) is meaningful. -/
def hasMeaningfulValue : JVal → Bool
  | JVal.null => false
  | JVal.str s => !(pyStrip s = "")
  | JVal.arr JArr.nil => false
  | JVal.arr (JArr.cons _ _) => true
  | _ => true

/-- The leaf test of the `else` branch of
`CoverageAnalyzer.extract_field_paths` (src/scripts/analyze_coverage.py
line 88): `value is not None and str(value).strip()`.  Note that the
Python string form of an empty list is the non-blank text `[]`. -/
def detailedLeafOk (v : JVal) : Bool :=
  !(v = JVal.null) && !(pyStrip (pyStr v) = "")

/-- The leaf test of the non-dict list branch of
`CoverageAnalyzer.extract_field_paths` (line 84): `value and
str(value).strip()`, where `value` is a list (truthy exactly when
non-empty). -/
def detailedListOk (v : JVal) : Bool :=
  (match v with
    | JVal.arr JArr.nil => false
    | _ => true) && !(pyStrip (pyStr v) = "")

/-- Path concatenation of the extractors:
`f"{prefix}.{key}" if prefix else key`. -/
def joinPath (pre k : String) : String :=
  if pre = "" then k else pre ++ "." ++ k

mutual

/-- The body of both extractors, parameterized by the two leaf tests in
which `CoverageAnalyzer.extract_field_paths` (src/scripts/analyze_coverage.py
lines 48-91) and `SimpleCoverageAnalyzer.extract_leaf_field_paths`
(src/scripts/analyze_coverage_simple.py lines 48-91) differ: recurse into
dicts, recurse into the first element of a list when that element is a
dict, otherwise test the leaf; non-dict input yields no paths. -/
def extractGen (listOk leafOk : JVal → Bool) : JVal → String → List String
  | JVal.obj m, pre => extractGenObj listOk leafOk m pre
  | _, _ => []

/-- Iteration over the entries of one dict level, underscore keys
skipped. -/
def extractGenObj (listOk leafOk : JVal → Bool) : JObj → String → List String
  | JObj.nil, _ => []
  | JObj.cons k v rest, pre =>
      (if pyStartsWith k "_" then []
       else
        match v with
        | JVal.obj m' => extractGenObj listOk leafOk m' (joinPath pre k)
        | JVal.arr (JArr.cons first _) =>
            match first with
            | JVal.obj m' => extractGenObj listOk leafOk m' (joinPath pre k)
            | _ => if listOk v then [joinPath pre k] else []
        | _ => if leafOk v then [joinPath pre k] else []) ++
      extractGenObj listOk leafOk rest pre

end

/-- `CoverageAnalyzer.extract_field_paths` of the detailed analyzer
(src/scripts/analyze_coverage.py lines 48-91). -/
def extractFieldPaths (data : JVal) : List String :=
  extractGen detailedListOk detailedLeafOk data ""

/-- `SimpleCoverageAnalyzer.extract_leaf_field_paths`
(src/scripts/analyze_coverage_simple.py lines 48-91); its two leaf tests
are both `_has_meaningful_value`. -/
def extractLeafFieldPaths (data : JVal) : List String :=
  extractGen hasMeaningfulValue hasMeaningfulValue data ""

/-- The entry list of a dict, in iteration order. -/
def jobjEntries : JObj → List (String × JVal)
  | JObj.nil => []
  | JObj.cons k v rest => (k, v) :: jobjEntries rest

/-- `jobjMem m k v`: `(k, v)` is an entry of `m`. -/
def jobjMem (m : JObj) (k : String) (v : JVal) : Prop :=
  (k, v) ∈ jobjEntries m

/-- A value the extractors treat as a leaf: neither a dict nor a list
whose first element is a dict. -/
def leafShaped : JVal → Bool
  | JVal.obj _ => false
  | JVal.arr (JArr.cons (JVal.obj _) _) => false
  | _ => true

/-- The leaf test the extractors apply to a leaf-shaped value: the list
branch test for non-empty lists, the scalar branch test otherwise. -/
def leafTest (listOk leafOk : JVal → Bool) (v : JVal) : Bool :=
  match v with
  | JVal.arr (JArr.cons _ _) => listOk v
  | _ => leafOk v

/-- Fold a segment list onto a path prefix with `joinPath`. -/
def joinSegs (pre : String) (segs : List String) : String :=
  segs.foldl joinPath pre

/-- A leaf of a record, specification side: `IsLeafEntry m segs v` holds
when following `segs` from dict `m` — through nested dicts and through
first-elements of lists when those are dicts, never through an
underscore-prefixed key — ends at a value `v` that the traversal treats
as a leaf (not a dict, and not a list whose first element is a dict). -/
inductive IsLeafEntry : JObj → List String → JVal → Prop
  | leaf {m : JObj} {k : String} {v : JVal} :
      jobjMem m k v → pyStartsWith k "_" = false → leafShaped v = true →
      IsLeafEntry m [k] v
  | intoDict {m m' : JObj} {k : String} {segs : List String} {v : JVal} :
      jobjMem m k (JVal.obj m') → pyStartsWith k "_" = false →
      IsLeafEntry m' segs v → IsLeafEntry m (k :: segs) v
  | intoList {m m' : JObj} {k : String} {rest : JArr} {segs : List String} {v : JVal} :
      jobjMem m k (JVal.arr (JArr.cons (JVal.obj m') rest)) →
      pyStartsWith k "_" = false →
      IsLeafEntry m' segs v → IsLeafEntry m (k :: segs) v

/-! ### Markup cleaning (src/src/utils/cleaner.py) -/

/-- Scanner behind the markup cleaning: the text segments of an HTML
string, split at tags.  The flag says whether the scanner is inside a
tag (skipping up to the next closing angle bracket). -/
def textSegments : Bool → List Char → List (List Char)
  | _, [] => [[]]
  | true, c :: cs =>
      if c = '>' then textSegments false cs else textSegments true cs
  | false, c :: cs =>
      if c = '<' then [] :: textSegments true cs
      else
        match textSegments false cs with
        | [] => [[c]]
        | seg :: segs => (c :: seg) :: segs

/-- Modelled from the spec: `clean_text_html` (src/src/utils/cleaner.py
lines 11-28) delegates HTML parsing to the external BeautifulSoup
library, which is not part of this repository; spec §4.4 pins its
behavior — extract only the text content, strip each text segment, join
the non-blank segments with single spaces, and pass plain markup-free
strings through unchanged apart from trimming. -/
def cleanTextHtml (s : String) : String :=
  " ".intercalate
    (((textSegments false s.toList).map (fun cs => pyStrip (String.mk cs))).filter
      (fun t => !(t = "")))

/-- The elements of a JSON array as a list. -/
def jarrList : JArr → List JVal
  | JArr.nil => []
  | JArr.cons v rest => v :: jarrList rest

/-- `clean_text_html` applied to an arbitrary value: its guard
`if not text or not isinstance(text, str)` returns the empty string for
any non-string argument. -/
def cleanTextHtmlV : JVal → String
  | JVal.str s => cleanTextHtml s
  | _ => ""

/-- `clean_value` (src/src/utils/cleaner.py lines 31-61): strings are
HTML-cleaned; dicts use their `text` key if present and otherwise their
Python string form; lists join the cleaned string forms of their
elements with `, `; `None` and the empty list give the empty string;
anything else is stringified and cleaned. -/
def cleanValue : JVal → String
  | JVal.null => ""
  | JVal.str s => cleanTextHtml s
  | JVal.obj m =>
      match jobjGet m "text" with
      | some t => cleanTextHtmlV t
      | none => cleanTextHtml (pyStr (JVal.obj m))
  | JVal.arr JArr.nil => ""
  | JVal.arr (JArr.cons x xs) =>
      ", ".intercalate ((jarrList (JArr.cons x xs)).map (fun it => cleanTextHtml (pyStr it)))
  | v => cleanTextHtml (pyStr v)

/-! ### FieldValueResolver: `DataParser.extract_text_value` (src/parser.py) -/

/-- `DataParser.extract_text_value` (src/parser.py lines 52-88).  Note
the dict branch: it does not recurse — it takes the Python string form
of the `text` (else `value`) key's value and runs `clean_value` on that
string.  Python booleans pass the `isinstance(value, (int, float))`
test, so they are stringified without cleaning, like numbers. -/
def extractTextValue : JVal → Option String
  | JVal.null => none
  | JVal.str s => some (cleanValue (JVal.str s))
  | JVal.int n => some (pyStr (JVal.int n))
  | JVal.bool b => some (pyStr (JVal.bool b))
  | JVal.obj m =>
      match jobjGet m "text" with
      | some t => some (cleanValue (JVal.str (pyStr t)))
      | none =>
          match jobjGet m "value" with
          | some t => some (cleanValue (JVal.str (pyStr t)))
          | none => some (cleanValue (JVal.str (pyStr (JVal.obj m))))
  | JVal.arr JArr.nil => none
  | JVal.arr (JArr.cons x xs) =>
      some (", ".intercalate
        ((jarrList (JArr.cons x xs)).map (fun it => cleanValue (JVal.str (pyStr it)))))

/-- The terminal-value normalization as the specification words it
(§4.4): a mapping with a `text` key RECURSIVELY normalizes that key's
value, else a `value` key recursively, else falls back to the cleaned
string form of the whole mapping.  Defined for comparison with the
source's `extract_text_value`. -/
def extractTextValueSpec : JVal → Option String
  | JVal.null => none
  | JVal.str s => some (cleanTextHtml s)
  | JVal.int n => some (pyStr (JVal.int n))
  | JVal.bool b => some (pyStr (JVal.bool b))
  | JVal.obj m =>
      match h : jobjGet m "text" with
      | some t => extractTextValueSpec t
      | none =>
          match h2 : jobjGet m "value" with
          | some t => extractTextValueSpec t
          | none => some (cleanTextHtml (pyStr (JVal.obj m)))
  | JVal.arr JArr.nil => none
  | JVal.arr (JArr.cons x xs) =>
      some (", ".intercalate ((jarrList (JArr.cons x xs)).map (fun it => cleanTextHtml (pyStr it))))
termination_by v => sizeOf v
decreasing_by
  all_goals
    have key : ∀ (n : Nat) (m : JObj), sizeOf m ≤ n → ∀ (k : String) (t : JVal),
        jobjGet m k = some t → sizeOf t < sizeOf m := by
      intro n
      induction n with
      | zero =>
          intro m hm k t ht
          cases m with
          | nil => simp [jobjGet] at ht
          | cons k1 v1 rest => simp only [JObj.cons.sizeOf_spec] at hm; omega
      | succ n ihn =>
          intro m hm k t ht
          cases m with
          | nil => simp [jobjGet] at ht
          | cons k1 v1 rest =>
              simp only [jobjGet] at ht
              by_cases hk : k1 = k
              · rw [if_pos hk] at ht
                injection ht with h3
                subst h3
                simp only [JObj.cons.sizeOf_spec]
                omega
              · rw [if_neg hk] at ht
                have hr : sizeOf rest ≤ n := by
                  simp only [JObj.cons.sizeOf_spec] at hm
                  omega
                have := ihn rest hr k t ht
                simp only [JObj.cons.sizeOf_spec]
                omega
  all_goals simp only [JVal.obj.sizeOf_spec]
  · have := key (sizeOf m) m le_rfl "text" t h
    omega
  · have := key (sizeOf m) m le_rfl "value" t h2
    omega

/-! ### RecordProjector: `DataParser.parse_country_data` (src/parser.py) -/

/-- Assignment `row[k] = v` with Python dict semantics: an existing key
keeps its position and gets the new value, a new key is appended. -/
def pyDictSet (row : List (String × Option String)) (k : String) (v : Option String) :
    List (String × Option String) :=
  if row.any (fun e => e.1 = k) then
    row.map (fun e => if e.1 = k then (e.1, v) else e)
  else row ++ [(k, v)]

/-- The country display name of `parse_country_data` (src/parser.py lines
101-103): `get_country_name(gec_code)` — an external configuration
lookup, passed in as a function — falling back to the uppercased code
when the lookup yields nothing (Python falsiness covers both `None` and
the empty string). -/
def countryDisplayName (lookupName : String → Option String) (gec : String) : String :=
  match lookupName gec with
  | some n => if n = "" then pyUpper gec else n
  | none => pyUpper gec

/-- The per-mapping resolution of `parse_country_data` (src/parser.py
lines 115-116): navigate the dotted path, then normalize; a missing path
yields `None` (and `extract_text_value(None)` is `None`). -/
def resolveField (json : JVal) (path : String) : Option String :=
  match getNestedValue json path with
  | some v => extractTextValue v
  | none => none

/-- `DataParser.parse_country_data` (src/parser.py lines 90-125): start
the row with the uppercased country code and the country name, then
assign one column per configured `(json_path, column_name)` mapping in
order, the value being the resolved field (possibly `None`). -/
def parseCountryData (lookupName : String → Option String)
    (mappings : List (String × String)) (gec : String) (json : JVal) :
    List (String × Option String) :=
  mappings.foldl (fun row pc => pyDictSet row pc.2 (resolveField json pc.1))
    [("Country Code", some (pyUpper gec)),
     ("Country Name", some (countryDisplayName lookupName gec))]

/-- `parse_country_data` with the per-mapping resolution abstracted as a
fallible step (`Except` models a Python exception escaping the
resolution of one mapping): the loop body of src/parser.py lines 114-123
contains no `try`, so the first failure aborts the whole row. -/
def parseCountryDataE (resolve : String → Except String (Option String))
    (mappings : List (String × String)) (gec : String)
    (lookupName : String → Option String) :
    Except String (List (String × Option String)) :=
  mappings.foldlM (fun row pc => (resolve pc.1).map (fun v => pyDictSet row pc.2 v))
    [("Country Code", some (pyUpper gec)),
     ("Country Name", some (countryDisplayName lookupName gec))]

/-- The per-country body of `DataParser.parse_multiple_countries`
(src/parser.py lines 139-153): `try` the full row; on any exception fall
back to a two-column record with just the basic country info.  The
exception is consumed here and never propagates further. -/
def parseCountryRow (resolve : String → Except String (Option String))
    (mappings : List (String × String)) (gec : String)
    (lookupName : String → Option String) : List (String × Option String) :=
  match parseCountryDataE resolve mappings gec lookupName with
  | Except.ok row => row
  | Except.error _ =>
      [("Country Code", some (pyUpper gec)),
       ("Country Name", some (countryDisplayName lookupName gec))]

/-! ### Retriever: `DataFetcher.fetch_country_data` (src/fetcher.py) -/

/-- The possible outcomes of one fetch, abstracting the network and the
configuration lookup: an unknown country code (no URL), a transport
error, a JSON decode error, any other exception, or a successfully
decoded body. -/
inductive FetchOutcome where
  | invalidCode : FetchOutcome
  | requestError : String → FetchOutcome
  | decodeError : String → FetchOutcome
  | unexpectedError : String → FetchOutcome
  | success : JVal → FetchOutcome
deriving DecidableEq

/-- A decoded Python value as an optional record: Python draws no
distinction between `None` as absence marker and `None` as the decoding
of the JSON `null` document — both are the same object. -/
def pyOptional : JVal → Option JVal
  | JVal.null => none
  | v => some v

/-- `DataFetcher.fetch_country_data` (src/fetcher.py lines 54-98): an
unknown code returns `(None, message)` before any request; each of the
three `except` arms returns `(None, message)`; the success path returns
`(response.json(), None)` — the decoded body as-is. -/
def fetchCountryData (gec : String) : FetchOutcome → Option JVal × Option String
  | FetchOutcome.invalidCode => (none, some ("Invalid country code: " ++ gec))
  | FetchOutcome.requestError m => (none, some ("Network error fetching " ++ gec ++ ": " ++ m))
  | FetchOutcome.decodeError m => (none, some ("JSON parsing error for " ++ gec ++ ": " ++ m))
  | FetchOutcome.unexpectedError m => (none, some ("Unexpected error fetching " ++ gec ++ ": " ++ m))
  | FetchOutcome.success body => (pyOptional body, none)

/-! ### FieldNamer: `SimpleCoverageAnalyzer.generate_field_name` -/

/-- The abbreviation table of `_make_readable`
(src/scripts/analyze_coverage_simple.py lines 150-165), in dict
insertion order. -/
def abbreviationTable : List (String × String) :=
  [("gdp", "GDP"), ("gini", "Gini"), ("hiv", "HIV"), ("aids", "AIDS"),
   ("co2", "CO2"), ("pm25", "PM2.5"), ("us", "US"), ("uk", "UK"),
   ("eu", "EU"), ("un", "UN"), ("nato", "NATO"), ("wto", "WTO"),
   ("imf", "IMF"), ("worldbank", "World Bank")]

/-- The tail step of the camel-case spacing regex
`(?<!^)(?=[A-Z])`: a space goes before every ASCII capital. -/
def insertSpacesAux : List Char → List Char
  | [] => []
  | c :: cs =>
      if 'A' ≤ c ∧ c ≤ 'Z' then ' ' :: c :: insertSpacesAux cs
      else c :: insertSpacesAux cs

/-- `re.sub(r'(?<!^)(?=[A-Z])', ' ', s)`: a space before every ASCII
capital except at the very start. -/
def insertSpacesBeforeCaps : List Char → List Char
  | [] => []
  | c :: cs => c :: insertSpacesAux cs

/-- Helper of Python's no-argument `str.split`: cut at every whitespace
character (empties filtered by the caller). -/
def splitWSAux : List Char → List (List Char)
  | [] => [[]]
  | c :: cs =>
      if pyIsSpace c then [] :: splitWSAux cs
      else
        match splitWSAux cs with
        | [] => [[c]]
        | seg :: segs => (c :: seg) :: segs

/-- Python `str.capitalize()`: first character uppercased, the rest
lowercased. -/
def pyCapitalize : List Char → List Char
  | [] => []
  | c :: cs => pyUpperChar c :: cs.map pyLowerChar

/-- `SimpleCoverageAnalyzer._make_readable`
(src/scripts/analyze_coverage_simple.py lines 139-181): for each known
abbreviation whose lowercase form occurs in the LOWERCASED original
name, replace the first occurrence of that lowercase form in the
current (original-case) name by the canonical casing; then insert a
space before every internal capital and capitalize each
whitespace-separated word. -/
def makeReadable (fieldName : String) : String :=
  let lowerName := pyLower fieldName
  let replaced := abbreviationTable.foldl
    (fun fn ab => if pyContains lowerName ab.1 then pyReplaceFirst fn ab.1 ab.2 else fn)
    fieldName
  let spaced := insertSpacesBeforeCaps replaced.toList
  " ".intercalate
    (((splitWSAux spaced).filter (fun seg => !seg.isEmpty)).map
      (fun seg => String.mk (pyCapitalize seg)))

/-- `SimpleCoverageAnalyzer.generate_field_name`
(src/scripts/analyze_coverage_simple.py lines 114-137): drop one
trailing `.text`, take the last dot-separated segment, make it
readable. -/
def generateFieldName (jsonPath : String) : String :=
  let stripped :=
    if pyEndsWith jsonPath ".text" then
      String.mk (jsonPath.toList.take (jsonPath.toList.length - 5))
    else jsonPath
  makeReadable (List.getLastD (pySplitDot stripped) "")

/-! ### CoverageAggregator (src/scripts/analyze_coverage.py and
analyze_coverage_simple.py) -/

/-- The per-field tallies of the detailed analyzer
(`self.field_coverage[field]`): present count, missing count, missing
country codes. -/
structure FieldStats where
  present : Nat
  missing : Nat
  missingCountries : List String
deriving DecidableEq

/-- The keys of the running coverage dict, in insertion order. -/
def stateKeys (st : List (String × FieldStats)) : List String :=
  st.map Prod.fst

/-- `CoverageAnalyzer.update_field_coverage`
(src/scripts/analyze_coverage.py lines 110-137) for one successful
record: `all_fields` is the SET of known keys united with the record's
paths; iterating that set in the (unspecified) order `iterOrder`, new
fields are initialized to zero tallies — no retroactive absences — and
then every field gets `present + 1` if it is among the record's paths
and otherwise `missing + 1` and the country appended to its missing
list.  The set iteration order is a parameter because Python leaves it
unspecified; it only influences where the new keys land in the dict. -/
def updateFieldCoverage (st : List (String × FieldStats)) (fieldPaths : List String)
    (countryCode : String) (iterOrder : List String) : List (String × FieldStats) :=
  ((st ++ (iterOrder.filter (fun f => !(st.any (fun e => e.1 = f)))).map
      (fun f => (f, FieldStats.mk 0 0 []))).map
    (fun e =>
      if e.1 ∈ fieldPaths then (e.1, FieldStats.mk (e.2.present + 1) e.2.missing e.2.missingCountries)
      else (e.1, FieldStats.mk e.2.present (e.2.missing + 1) (e.2.missingCountries ++ [countryCode]))))

/-- One successful observation of the detailed analyzer: the extracted
field paths, the country code, and the iteration order of the
`all_fields` set during `update_field_coverage`. -/
structure DetObs where
  paths : List String
  country : String
  order : List String
deriving DecidableEq

/-- The state of `self.field_coverage` after a run of successful
observations (`analyze_all_countries` calls `update_field_coverage`
exactly once per successfully processed record). -/
def runDetailed (obs : List DetObs) : List (String × FieldStats) :=
  obs.foldl (fun st o => updateFieldCoverage st o.paths o.country o.order) []

/-- No-duplicates check for a string list. -/
def nodupB : List String → Bool
  | [] => true
  | x :: xs => !(xs.contains x) && nodupB xs

/-- A legal iteration order for the `all_fields` set: no duplicates and
exactly the union of the known keys and the record's paths. -/
def validOrderB (st : List (String × FieldStats)) (paths : List String)
    (iterOrder : List String) : Bool :=
  nodupB iterOrder &&
  iterOrder.all (fun f => st.any (fun e => e.1 = f) || paths.contains f) &&
  (stateKeys st).all (fun f => iterOrder.contains f) &&
  paths.all (fun f => iterOrder.contains f)

/-- A run whose every observation carries a legal set-iteration order
for the state it meets. -/
def validRunFromB : List (String × FieldStats) → List DetObs → Bool
  | _, [] => true
  | st, o :: rest =>
      validOrderB st o.paths o.order &&
      validRunFromB (updateFieldCoverage st o.paths o.country o.order) rest

/-- A legal run from the empty initial state. -/
def validRunB (obs : List DetObs) : Bool :=
  validRunFromB [] obs

/-- The raw (unrounded) coverage percentage of
`calculate_coverage_stats` (src/scripts/analyze_coverage.py lines
202-205): `present / (present + missing) * 100` when the total is
positive, else `0.0`. -/
def coveragePct (s : FieldStats) : ℚ :=
  if s.present + s.missing > 0 then
    (s.present : ℚ) / ((s.present : ℚ) + (s.missing : ℚ)) * 100
  else 0

/-- Python's `round(x, 1)` on the idealized (rational) value. -/
def roundTo1 (q : ℚ) : ℚ :=
  ((round (10 * q) : ℤ) : ℚ) / 10

/-- `CoverageAnalyzer.classify_field_tier`
(src/scripts/analyze_coverage.py lines 93-108). -/
def classifyFieldTier (pct : ℚ) : String :=
  if pct ≥ 95 then "universal"
  else if pct ≥ 70 then "common"
  else "partial"

/-- `CoverageAnalyzer.calculate_coverage_stats`
(src/scripts/analyze_coverage.py lines 198-209): per field, the stored
`coverage_pct` is the ROUNDED percentage while the stored tier is
classified from the UNROUNDED `coverage_pct` local. -/
def calculateCoverageStats (st : List (String × FieldStats)) :
    List (String × FieldStats × ℚ × String) :=
  st.map (fun e => (e.1, e.2, roundTo1 (coveragePct e.2), classifyFieldTier (coveragePct e.2)))

/-- Stable insertion step for a descending sort: the new element (which
came EARLIER in the input) skips only strictly larger keys, so equal
keys keep input order — the behavior of Python's stable
`sorted(..., reverse=True)` / `list.sort(..., reverse=True)`. -/
def insertDescBy {α : Type} (key : α → ℚ) (x : α) : List α → List α
  | [] => [x]
  | y :: ys => if key y > key x then y :: insertDescBy key x ys else x :: y :: ys

/-- Stable descending sort by a rational key. -/
def stableSortDescBy {α : Type} (key : α → ℚ) (l : List α) : List α :=
  l.foldr (insertDescBy key) []

/-- The sorted field list of `CoverageAnalyzer.generate_report`
(src/scripts/analyze_coverage.py lines 235-242): fields sorted by the
stored (rounded) `coverage_pct`, descending, stable on dict insertion
order. -/
def detailedReportFields (obs : List DetObs) : List (String × FieldStats × ℚ × String) :=
  stableSortDescBy (fun e => e.2.2.1) (calculateCoverageStats (runDetailed obs))

/-- One `field_path += 1` step of the simplified analyzer
(src/scripts/analyze_coverage_simple.py lines 234-237): a new path is
appended with count 1, an existing one is incremented in place. -/
def simpleBump (st : List (String × Nat)) (f : String) : List (String × Nat) :=
  if st.any (fun e => e.1 = f) then
    st.map (fun e => if e.1 = f then (e.1, e.2 + 1) else e)
  else st ++ [(f, 1)]

/-- All bumps of one successful record of the simplified analyzer. -/
def simpleObserve (st : List (String × Nat)) (paths : List String) : List (String × Nat) :=
  paths.foldl simpleBump st

/-- `self.field_presence` after a run of successful observations
(`processed_countries` equals the number of observations). -/
def runSimple (obs : List (List String)) : List (String × Nat) :=
  obs.foldl simpleObserve []

/-- The simplified report's field rows before sorting
(src/scripts/analyze_coverage_simple.py lines 252-262):
`(field_name, json_path, rounded percentage over processed count)`,
in dict iteration order of `field_presence`. -/
def simpleFieldsData (obs : List (List String)) : List (String × String × ℚ) :=
  (runSimple obs).map (fun e =>
    (generateFieldName e.1, e.1,
     roundTo1 (if obs.length > 0 then (e.2 : ℚ) / (obs.length : ℚ) * 100 else 0)))

/-- `generate_simplified_report`'s sorted field list
(src/scripts/analyze_coverage_simple.py lines 264-265): stable sort on
the rounded `coverage_pct`, descending. -/
def simpleReportFields (obs : List (List String)) : List (String × String × ℚ) :=
  stableSortDescBy (fun e => e.2.2) (simpleFieldsData obs)

/-- First-occurrence deduplication: the discovery order of field paths
over a run. -/
def firstDedup (l : List String) : List String :=
  l.foldl (fun acc a => if acc.contains a then acc else acc ++ [a]) []

/-- First-match association lookup (for reading one field's entry out
of a report or state). -/
def assocFind {β : Type} (l : List (String × β)) (k : String) : Option β :=
  match l with
  | [] => none
  | e :: rest => if e.1 = k then some e.2 else assocFind rest k

/-- The index of the first observation containing a path, if any. -/
def firstSeenAt : List DetObs → String → Option Nat
  | [], _ => none
  | o :: rest, f =>
      if f ∈ o.paths then some 0 else (firstSeenAt rest f).map (· + 1)



/-- Consistency of the detailed aggregator's running state with the
history of successful observations already processed: keys are exactly
the paths seen so far (no duplicates), each field's present tally counts
the observations containing it, and present + missing spans exactly the
observations since the field's first appearance. -/
def StateConsistent (hist : List DetObs) (st : List (String × FieldStats)) : Prop :=
  (st.map Prod.fst).Nodup ∧
  (∀ f, f ∈ st.map Prod.fst ↔ ∃ o ∈ hist, f ∈ o.paths) ∧
  (∀ f s, assocFind st f = some s →
    s.present = hist.countP (fun o => f ∈ o.paths) ∧
    ∃ i, firstSeenAt hist f = some i ∧ s.present + s.missing = hist.length - i)


/-- A legal two-record run in which field `b` first appears in the
second record. -/
def sampleRunLate : List DetObs :=
  [DetObs.mk ["a"] "c1" ["a"], DetObs.mk ["a", "b"] "c2" ["a", "b"]]

/-- A legal 119-record run in which field `a` is present in the first
113 records and absent from the last 6. -/
def sampleRunRound : List DetObs :=
  List.replicate 113 (DetObs.mk ["a"] "c" ["a"]) ++
    List.replicate 6 (DetObs.mk ["b"] "c" ["a", "b"])

theorem navKeys_some_iff (data : JVal) (ks : List String) (v : JVal) :
    navKeys data ks = some v ↔ ResolvesTo data ks v := by
  induction ks generalizing data with
  | nil =>
      simp only [navKeys, Option.some.injEq]
      constructor
      · rintro rfl; exact ResolvesTo.nil data
      · rintro h; cases h; rfl
  | cons k ks ih =>
      cases data with
      | obj m =>
          simp only [navKeys]
          cases hg : jobjGet m k with
          | none =>
              refine iff_of_false (by simp) ?_
              intro h; cases h with
              | cons hg' _ => rw [hg] at hg'; exact Option.noConfusion hg'
          | some w =>
              rw [ih]
              constructor
              · intro h; exact ResolvesTo.cons hg h
              · intro h
                cases h with
                | cons hg' h' =>
                    rename_i w'
                    have : w = w' := by
                      rw [hg] at hg'; exact (Option.some.injEq _ _).mp hg'
                    rw [this]; exact h'
      | null =>
          refine iff_of_false (by simp [navKeys]) ?_
          intro h; cases h
      | bool b =>
          refine iff_of_false (by simp [navKeys]) ?_
          intro h; cases h
      | int n =>
          refine iff_of_false (by simp [navKeys]) ?_
          intro h; cases h
      | str s =>
          refine iff_of_false (by simp [navKeys]) ?_
          intro h; cases h
      | arr xs =>
          refine iff_of_false (by simp [navKeys]) ?_
          intro h; cases h

/-- C6: for every record of any nested shape and every dotted path, the
navigation of `DataParser.get_nested_value` returns a value exactly when
every path segment steps through a mapping that contains it — so it
returns `None` whenever any segment is missing or the current value is
not a mapping — and, being a total function, it never raises. -/
theorem getNestedValue_none_iff (data : JVal) (path : String) :
    getNestedValue data path = none ↔
      ¬ ∃ v, ResolvesTo data (pySplitDot path) v := by
  unfold getNestedValue
  constructor
  · rintro hnone ⟨v, hv⟩
    rw [← navKeys_some_iff] at hv
    rw [hv] at hnone
    exact Option.noConfusion hnone
  · intro hno
    cases hnav : navKeys data (pySplitDot path) with
    | none => rfl
    | some v =>
        exact absurd ⟨v, (navKeys_some_iff data _ v).mp hnav⟩ hno

theorem isLeafEntry_lift (k : String) (v : JVal) {rest : JObj} {segs : List String}
    {w : JVal} (h : IsLeafEntry rest segs w) : IsLeafEntry (JObj.cons k v rest) segs w := by
  cases h with
  | leaf hm hu hl => exact IsLeafEntry.leaf (List.Mem.tail _ hm) hu hl
  | intoDict hm hu h' => exact IsLeafEntry.intoDict (List.Mem.tail _ hm) hu h'
  | intoList hm hu h' => exact IsLeafEntry.intoList (List.Mem.tail _ hm) hu h'

theorem isLeafEntry_cons_iff (k : String) (v : JVal) (rest : JObj) (segs : List String)
    (w : JVal) :
    IsLeafEntry (JObj.cons k v rest) segs w ↔
      ((pyStartsWith k "_" = false ∧
        ((segs = [k] ∧ w = v ∧ leafShaped v = true) ∨
         (∃ m', v = JVal.obj m' ∧
            ∃ segs', segs = k :: segs' ∧ IsLeafEntry m' segs' w) ∨
         (∃ m' a, v = JVal.arr (JArr.cons (JVal.obj m') a) ∧
            ∃ segs', segs = k :: segs' ∧ IsLeafEntry m' segs' w)))
       ∨ IsLeafEntry rest segs w) := by
  constructor
  · intro h
    cases h with
    | leaf hm hu hl =>
        rcases List.mem_cons.mp hm with heq | htail
        · simp only [Prod.mk.injEq] at heq
          obtain ⟨h1, h2⟩ := heq
          subst h1
          exact Or.inl ⟨hu, Or.inl ⟨rfl, h2, h2 ▸ hl⟩⟩
        · exact Or.inr (IsLeafEntry.leaf htail hu hl)
    | intoDict hm hu h' =>
        rcases List.mem_cons.mp hm with heq | htail
        · simp only [Prod.mk.injEq] at heq
          obtain ⟨h1, h2⟩ := heq
          subst h1
          exact Or.inl ⟨hu, Or.inr (Or.inl ⟨_, h2.symm, _, rfl, h'⟩)⟩
        · exact Or.inr (IsLeafEntry.intoDict htail hu h')
    | intoList hm hu h' =>
        rcases List.mem_cons.mp hm with heq | htail
        · simp only [Prod.mk.injEq] at heq
          obtain ⟨h1, h2⟩ := heq
          subst h1
          exact Or.inl ⟨hu, Or.inr (Or.inr ⟨_, _, h2.symm, _, rfl, h'⟩)⟩
        · exact Or.inr (IsLeafEntry.intoList htail hu h')
  · rintro (⟨hu, ⟨rfl, rfl, hl⟩ | ⟨m', rfl, segs', rfl, h'⟩ | ⟨m', a, rfl, segs', rfl, h'⟩⟩ | h)
    · exact IsLeafEntry.leaf (List.mem_cons_self ..) hu hl
    · exact IsLeafEntry.intoDict (List.mem_cons_self ..) hu h'
    · exact IsLeafEntry.intoList (List.mem_cons_self ..) hu h'
    · exact isLeafEntry_lift k v h

theorem exists_leaf_cons_split (T : JVal → Bool) (k : String) (v : JVal) (rest : JObj)
    (pre p : String) :
    (∃ segs w, p = joinSegs pre segs ∧ IsLeafEntry (JObj.cons k v rest) segs w ∧ T w = true) ↔
      ((pyStartsWith k "_" = false ∧
         ((p = joinPath pre k ∧ leafShaped v = true ∧ T v = true) ∨
          (∃ m', v = JVal.obj m' ∧
             ∃ segs' w, p = joinSegs (joinPath pre k) segs' ∧
               IsLeafEntry m' segs' w ∧ T w = true) ∨
          (∃ m' a, v = JVal.arr (JArr.cons (JVal.obj m') a) ∧
             ∃ segs' w, p = joinSegs (joinPath pre k) segs' ∧
               IsLeafEntry m' segs' w ∧ T w = true)))
       ∨ (∃ segs w, p = joinSegs pre segs ∧ IsLeafEntry rest segs w ∧ T w = true)) := by
  constructor
  · rintro ⟨segs, w, rfl, hleaf, hT⟩
    rcases (isLeafEntry_cons_iff k v rest segs w).mp hleaf with
      ⟨hu, ⟨rfl, rfl, hl⟩ | ⟨m', rfl, segs', rfl, h'⟩ | ⟨m', a, rfl, segs', rfl, h'⟩⟩ | h
    · exact Or.inl ⟨hu, Or.inl ⟨by simp [joinSegs, List.foldl], hl, hT⟩⟩
    · exact Or.inl ⟨hu, Or.inr (Or.inl ⟨m', rfl, segs', w, by simp [joinSegs, List.foldl], h', hT⟩)⟩
    · exact Or.inl ⟨hu, Or.inr (Or.inr ⟨m', a, rfl, segs', w, by simp [joinSegs, List.foldl], h', hT⟩)⟩
    · exact Or.inr ⟨segs, w, rfl, h, hT⟩
  · rintro (⟨hu, ⟨rfl, hl, hT⟩ | ⟨m', rfl, segs', w, rfl, h', hT⟩ | ⟨m', a, rfl, segs', w, rfl, h', hT⟩⟩ | ⟨segs, w, rfl, h, hT⟩)
    · exact ⟨[k], v, by simp [joinSegs, List.foldl],
        (isLeafEntry_cons_iff ..).mpr (Or.inl ⟨hu, Or.inl ⟨rfl, rfl, hl⟩⟩), hT⟩
    · exact ⟨k :: segs', w, by simp [joinSegs, List.foldl],
        (isLeafEntry_cons_iff ..).mpr (Or.inl ⟨hu, Or.inr (Or.inl ⟨m', rfl, segs', rfl, h'⟩)⟩), hT⟩
    · exact ⟨k :: segs', w, by simp [joinSegs, List.foldl],
        (isLeafEntry_cons_iff ..).mpr (Or.inl ⟨hu, Or.inr (Or.inr ⟨m', a, rfl, segs', rfl, h'⟩)⟩), hT⟩
    · exact ⟨segs, w, rfl, (isLeafEntry_cons_iff ..).mpr (Or.inr h), hT⟩

theorem extractGenObj_mem_aux (lo ko : JVal → Bool) :
    ∀ (n : ℕ) (m : JObj), sizeOf m ≤ n → ∀ (pre p : String),
      (p ∈ extractGenObj lo ko m pre ↔
        ∃ segs w, p = joinSegs pre segs ∧ IsLeafEntry m segs w ∧
          leafTest lo ko w = true) := by
  intro n
  induction n with
  | zero =>
      intro m hm pre p
      cases m with
      | nil =>
          refine iff_of_false (by simp [extractGenObj]) ?_
          rintro ⟨segs, w, _, hleaf, _⟩
          cases hleaf <;> simp_all [jobjMem, jobjEntries]
      | cons k v rest =>
          exfalso
          simp only [JObj.cons.sizeOf_spec] at hm
          omega
  | succ n ih =>
      intro m hm pre p
      cases m with
      | nil =>
          refine iff_of_false (by simp [extractGenObj]) ?_
          rintro ⟨segs, w, _, hleaf, _⟩
          cases hleaf <;> simp_all [jobjMem, jobjEntries]
      | cons k v rest =>
          have hrest : sizeOf rest ≤ n := by
            simp only [JObj.cons.sizeOf_spec] at hm
            omega
          have ihRest := ih rest hrest pre p
          rw [exists_leaf_cons_split (leafTest lo ko) k v rest pre p]
          cases v with
          | null =>
              cases hu : pyStartsWith k "_" with
              | true => simp [extractGenObj, hu, ihRest]
              | false =>
                  have hT : leafTest lo ko JVal.null = ko JVal.null := rfl
                  cases hk : ko JVal.null <;>
                    simp [extractGenObj, hu, hk, hT, ihRest, leafShaped]
          | bool b =>
              cases hu : pyStartsWith k "_" with
              | true => simp [extractGenObj, hu, ihRest]
              | false =>
                  have hT : leafTest lo ko (JVal.bool b) = ko (JVal.bool b) := rfl
                  cases hk : ko (JVal.bool b) <;>
                    simp [extractGenObj, hu, hk, hT, ihRest, leafShaped]
          | int i =>
              cases hu : pyStartsWith k "_" with
              | true => simp [extractGenObj, hu, ihRest]
              | false =>
                  have hT : leafTest lo ko (JVal.int i) = ko (JVal.int i) := rfl
                  cases hk : ko (JVal.int i) <;>
                    simp [extractGenObj, hu, hk, hT, ihRest, leafShaped]
          | str s =>
              cases hu : pyStartsWith k "_" with
              | true => simp [extractGenObj, hu, ihRest]
              | false =>
                  have hT : leafTest lo ko (JVal.str s) = ko (JVal.str s) := rfl
                  cases hk : ko (JVal.str s) <;>
                    simp [extractGenObj, hu, hk, hT, ihRest, leafShaped]
          | obj m2 =>
              have hm2 : sizeOf m2 ≤ n := by
                simp only [JObj.cons.sizeOf_spec, JVal.obj.sizeOf_spec] at hm
                omega
              have ihM := ih m2 hm2 (joinPath pre k) p
              cases hu : pyStartsWith k "_" with
              | true => simp [extractGenObj, hu, ihRest]
              | false => simp [extractGenObj, hu, ihM, ihRest, leafShaped]
          | arr xs =>
              cases xs with
              | nil =>
                  cases hu : pyStartsWith k "_" with
                  | true => simp [extractGenObj, hu, ihRest]
                  | false =>
                      have hT : leafTest lo ko (JVal.arr JArr.nil) =
                          ko (JVal.arr JArr.nil) := rfl
                      cases hk : ko (JVal.arr JArr.nil) <;>
                        simp [extractGenObj, hu, hk, hT, ihRest, leafShaped]
              | cons first a =>
                  cases first with
                  | obj m2 =>
                      have hm2 : sizeOf m2 ≤ n := by
                        simp only [JObj.cons.sizeOf_spec, JVal.arr.sizeOf_spec,
                          JArr.cons.sizeOf_spec, JVal.obj.sizeOf_spec] at hm
                        omega
                      have ihM := ih m2 hm2 (joinPath pre k) p
                      cases hu : pyStartsWith k "_" with
                      | true => simp [extractGenObj, hu, ihRest]
                      | false => simp [extractGenObj, hu, ihM, ihRest, leafShaped]
                  | null =>
                      cases hu : pyStartsWith k "_" with
                      | true => simp [extractGenObj, hu, ihRest]
                      | false =>
                          have hT : leafTest lo ko (JVal.arr (JArr.cons JVal.null a)) =
                              lo (JVal.arr (JArr.cons JVal.null a)) := rfl
                          cases hk : lo (JVal.arr (JArr.cons JVal.null a)) <;>
                            simp [extractGenObj, hu, hk, hT, ihRest, leafShaped]
                  | bool b =>
                      cases hu : pyStartsWith k "_" with
                      | true => simp [extractGenObj, hu, ihRest]
                      | false =>
                          have hT : leafTest lo ko (JVal.arr (JArr.cons (JVal.bool b) a)) =
                              lo (JVal.arr (JArr.cons (JVal.bool b) a)) := rfl
                          cases hk : lo (JVal.arr (JArr.cons (JVal.bool b) a)) <;>
                            simp [extractGenObj, hu, hk, hT, ihRest, leafShaped]
                  | int i =>
                      cases hu : pyStartsWith k "_" with
                      | true => simp [extractGenObj, hu, ihRest]
                      | false =>
                          have hT : leafTest lo ko (JVal.arr (JArr.cons (JVal.int i) a)) =
                              lo (JVal.arr (JArr.cons (JVal.int i) a)) := rfl
                          cases hk : lo (JVal.arr (JArr.cons (JVal.int i) a)) <;>
                            simp [extractGenObj, hu, hk, hT, ihRest, leafShaped]
                  | str s =>
                      cases hu : pyStartsWith k "_" with
                      | true => simp [extractGenObj, hu, ihRest]
                      | false =>
                          have hT : leafTest lo ko (JVal.arr (JArr.cons (JVal.str s) a)) =
                              lo (JVal.arr (JArr.cons (JVal.str s) a)) := rfl
                          cases hk : lo (JVal.arr (JArr.cons (JVal.str s) a)) <;>
                            simp [extractGenObj, hu, hk, hT, ihRest, leafShaped]
                  | arr ys =>
                      cases hu : pyStartsWith k "_" with
                      | true => simp [extractGenObj, hu, ihRest]
                      | false =>
                          have hT : leafTest lo ko (JVal.arr (JArr.cons (JVal.arr ys) a)) =
                              lo (JVal.arr (JArr.cons (JVal.arr ys) a)) := rfl
                          cases hk : lo (JVal.arr (JArr.cons (JVal.arr ys) a)) <;>
                            simp [extractGenObj, hu, hk, hT, ihRest, leafShaped]

theorem extractLeafFieldPaths_mem (m : JObj) (p : String) :
    p ∈ extractLeafFieldPaths (JVal.obj m) ↔
      ∃ segs w, p = joinSegs "" segs ∧ IsLeafEntry m segs w ∧
        leafTest hasMeaningfulValue hasMeaningfulValue w = true :=
  extractGenObj_mem_aux hasMeaningfulValue hasMeaningfulValue (sizeOf m) m le_rfl "" p

theorem extractFieldPaths_mem (m : JObj) (p : String) :
    p ∈ extractFieldPaths (JVal.obj m) ↔
      ∃ segs w, p = joinSegs "" segs ∧ IsLeafEntry m segs w ∧
        leafTest detailedListOk detailedLeafOk w = true :=
  extractGenObj_mem_aux detailedListOk detailedLeafOk (sizeOf m) m le_rfl "" p

/-- C3 (amended): a path is in an extractor's output exactly when some
leaf of the record at that path passes the extractor's leaf test.  The
simplified extractor's test excludes `null`, blank strings and the empty
sequence and includes `0`, `false`, non-blank strings and non-empty
non-mapping-headed sequences — but the detailed extractor INCLUDES the
empty sequence, whose Python string form `[]` is non-blank; on the
other seven value classes the two extractors agree with the claim. -/
theorem extractor_leaf_inclusion :
    (∀ (m : JObj) (p : String),
        p ∈ extractLeafFieldPaths (JVal.obj m) ↔
          ∃ segs w, p = joinSegs "" segs ∧ IsLeafEntry m segs w ∧
            leafTest hasMeaningfulValue hasMeaningfulValue w = true) ∧
    (∀ (m : JObj) (p : String),
        p ∈ extractFieldPaths (JVal.obj m) ↔
          ∃ segs w, p = joinSegs "" segs ∧ IsLeafEntry m segs w ∧
            leafTest detailedListOk detailedLeafOk w = true) ∧
    (leafTest hasMeaningfulValue hasMeaningfulValue JVal.null = false ∧
     leafTest hasMeaningfulValue hasMeaningfulValue (JVal.str "") = false ∧
     leafTest hasMeaningfulValue hasMeaningfulValue (JVal.str "  ") = false ∧
     leafTest hasMeaningfulValue hasMeaningfulValue (JVal.arr JArr.nil) = false ∧
     leafTest hasMeaningfulValue hasMeaningfulValue (JVal.int 0) = true ∧
     leafTest hasMeaningfulValue hasMeaningfulValue (JVal.bool false) = true ∧
     leafTest hasMeaningfulValue hasMeaningfulValue (JVal.str "x") = true ∧
     leafTest hasMeaningfulValue hasMeaningfulValue
       (JVal.arr (JArr.cons (JVal.str "a") JArr.nil)) = true) ∧
    (leafTest detailedListOk detailedLeafOk JVal.null = false ∧
     leafTest detailedListOk detailedLeafOk (JVal.str "") = false ∧
     leafTest detailedListOk detailedLeafOk (JVal.str "  ") = false ∧
     leafTest detailedListOk detailedLeafOk (JVal.arr JArr.nil) = true ∧
     leafTest detailedListOk detailedLeafOk (JVal.int 0) = true ∧
     leafTest detailedListOk detailedLeafOk (JVal.bool false) = true ∧
     leafTest detailedListOk detailedLeafOk (JVal.str "x") = true ∧
     leafTest detailedListOk detailedLeafOk
       (JVal.arr (JArr.cons (JVal.str "a") JArr.nil)) = true) :=
  ⟨extractLeafFieldPaths_mem, extractFieldPaths_mem, by decide, by decide⟩

/-- C3 counterexample: on the record whose single leaf is the empty
list, the detailed extractor emits the path although the claim requires
its exclusion; the simplified extractor excludes it. -/
theorem extract_empty_list_included_detailed :
    extractFieldPaths (JVal.obj (JObj.cons "a" (JVal.arr JArr.nil) JObj.nil)) = ["a"] ∧
    extractLeafFieldPaths (JVal.obj (JObj.cons "a" (JVal.arr JArr.nil) JObj.nil)) = [] := by
  constructor <;> decide

/-- C7 (amended): the source's fallback order for a terminal mapping is
exactly `text` key, then `value` key, then the whole mapping — but the
chosen key's value is NOT normalized recursively: it is converted with
Python `str` and that string is run through `clean_value`. -/
theorem extract_text_value_dict_fallback :
    (∀ (m : JObj) (t : JVal), jobjGet m "text" = some t →
        extractTextValue (JVal.obj m) = some (cleanValue (JVal.str (pyStr t)))) ∧
    (∀ (m : JObj) (t : JVal), jobjGet m "text" = none → jobjGet m "value" = some t →
        extractTextValue (JVal.obj m) = some (cleanValue (JVal.str (pyStr t)))) ∧
    (∀ (m : JObj), jobjGet m "text" = none → jobjGet m "value" = none →
        extractTextValue (JVal.obj m) = some (cleanValue (JVal.str (pyStr (JVal.obj m))))) := by
  refine ⟨fun m t ht => ?_, fun m t ht hv => ?_, fun m ht hv => ?_⟩ <;>
    simp [extractTextValue, ht]
  · rw [hv]
  · rw [hv]

theorem extract_text_value_dict_fallback_witness :
    jobjGet (JObj.cons "text" (JVal.str "hi") JObj.nil) "text" = some (JVal.str "hi") ∧
    extractTextValue (JVal.obj (JObj.cons "text" (JVal.str "hi") JObj.nil)) =
      some (cleanValue (JVal.str (pyStr (JVal.str "hi")))) :=
  ⟨by decide, extract_text_value_dict_fallback.1 _ _ (by decide)⟩

/-- C7 counterexample: on the mapping whose `text` key holds another
mapping, the source stringifies-and-cleans (yielding the Python repr of
the inner dict) while the claimed recursive normalization would descend
through the inner `value` key and yield `x`. -/
theorem extract_text_value_not_recursive :
    extractTextValue (JVal.obj (JObj.cons "text"
        (JVal.obj (JObj.cons "value" (JVal.str "x") JObj.nil)) JObj.nil)) =
      some "\x7b\x27value\x27: \x27x\x27\x7d" ∧
    extractTextValueSpec (JVal.obj (JObj.cons "text"
        (JVal.obj (JObj.cons "value" (JVal.str "x") JObj.nil)) JObj.nil)) =
      some "x" ∧
    ("\x7b\x27value\x27: \x27x\x27\x7d" : String) ≠ ("x" : String) := by
  refine ⟨by decide, ?_, by decide⟩
  simp [extractTextValueSpec, jobjGet, cleanTextHtml, textSegments, pyStrip, pyIsSpace]
  decide

/-- C9 (amended): `generate_field_name` drops one trailing `.text` and
derives the label from the last remaining segment; the abbreviation
pass detects abbreviations case-insensitively against the lowercased
original but replaces only a literal lowercase occurrence (so `Gdp`
stays `Gdp`), and the subsequent camel-case spacing splits every run of
capitals, so the example's label carries `G D P`, not `GDP`. -/
theorem generate_field_name_behavior :
    generateFieldName "Economy.Real GDP (purchasing power parity).text" =
      "Real G D P (purchasing Power Parity)" ∧
    makeReadable "gdp growth" = "G D P Growth" ∧
    makeReadable "Gdp" = "Gdp" ∧
    (∀ s : String, pyEndsWith s ".text" = false →
      generateFieldName s = makeReadable (List.getLastD (pySplitDot s) "")) := by
  refine ⟨by decide, by decide, by decide, fun s hs => ?_⟩
  simp [generateFieldName, hs]

theorem generate_field_name_behavior_witness :
    pyEndsWith "Geography.Location" ".text" = false ∧
    generateFieldName "Geography.Location" =
      makeReadable (List.getLastD (pySplitDot "Geography.Location") "") :=
  ⟨by decide, generate_field_name_behavior.2.2.2 "Geography.Location" (by decide)⟩

/-- C9 counterexample: on the spec's own example path the derived label
is `Real G D P (purchasing Power Parity)`; it does not contain the
canonical `GDP` substring the claim promises. -/
theorem name_for_gdp_not_canonical :
    generateFieldName "Economy.Real GDP (purchasing power parity).text" =
      "Real G D P (purchasing Power Parity)" ∧
    pyContains (generateFieldName "Economy.Real GDP (purchasing power parity).text")
      "GDP" = false := by
  constructor <;> decide

/-- C10 (amended): the fetch result never has both components populated,
and the only way both come back `None` is a successful request whose
body decodes to the JSON `null` document (Python's `response.json()`
then returns `None` itself); on every failure outcome exactly the error
message is populated, on every other success exactly the record is. -/
theorem fetch_result_shape (gec : String) (o : FetchOutcome) :
    (¬(((fetchCountryData gec o).1.isSome = true) ∧
       ((fetchCountryData gec o).2.isSome = true))) ∧
    ((((fetchCountryData gec o).1 = none) ∧ ((fetchCountryData gec o).2 = none)) ↔
      o = FetchOutcome.success JVal.null) := by
  cases o with
  | invalidCode => simp [fetchCountryData]
  | requestError m => simp [fetchCountryData]
  | decodeError m => simp [fetchCountryData]
  | unexpectedError m => simp [fetchCountryData]
  | success body => cases body <;> simp [fetchCountryData, pyOptional]

/-- C10 counterexample: a successful fetch of the JSON document `null`
returns `(None, None)` — both components null, contradicting the
exactly-one-null claim. -/
theorem fetch_null_body_both_none :
    fetchCountryData "fr" (FetchOutcome.success JVal.null) = (none, none) := by decide

theorem pyDictSet_fresh (row : List (String × Option String)) (k : String) (v : Option String)
    (h : k ∉ row.map Prod.fst) : pyDictSet row k v = row ++ [(k, v)] := by
  unfold pyDictSet
  rw [if_neg]
  intro hany
  rw [List.any_eq_true] at hany
  obtain ⟨e, he, heq⟩ := hany
  rw [decide_eq_true_eq] at heq
  exact h (List.mem_map.mpr ⟨e, he, heq⟩)

theorem foldl_pyDictSet_fresh (f : String × String → Option String) :
    ∀ (mappings : List (String × String)) (init : List (String × Option String)),
      (∀ c ∈ mappings.map Prod.snd, c ∉ init.map Prod.fst) →
      (mappings.map Prod.snd).Nodup →
      mappings.foldl (fun row pc => pyDictSet row pc.2 (f pc)) init =
        init ++ mappings.map (fun pc => (pc.2, f pc)) := by
  intro mappings
  induction mappings with
  | nil => intro init _ _; simp
  | cons pc rest ih =>
      intro init hfresh hnodup
      simp only [List.foldl_cons]
      rw [pyDictSet_fresh init pc.2 (f pc) (hfresh pc.2 (by simp))]
      have hnodup' : (rest.map Prod.snd).Nodup := by
        simp only [List.map_cons, List.nodup_cons] at hnodup
        exact hnodup.2
      have hhead : pc.2 ∉ rest.map Prod.snd := by
        simp only [List.map_cons, List.nodup_cons] at hnodup
        exact hnodup.1
      rw [ih (init ++ [(pc.2, f pc)]) ?_ hnodup']
      · simp
      · intro c hc
        simp only [List.map_append, List.mem_append, List.map_cons, List.mem_singleton]
        rintro (hcInit | hcNew)
        · exact hfresh c (by simp [hc]) hcInit
        · have hce : c = pc.2 := by simpa using hcNew
          exact hhead (hce ▸ hc)

theorem assocFind_cons_self {β : Type} (k : String) (b : β) (l : List (String × β)) :
    assocFind ((k, b) :: l) k = some b := by
  simp [assocFind]

theorem assocFind_cons_ne {β : Type} (k1 k : String) {b : β} (l : List (String × β))
    (h : k1 ≠ k) : assocFind ((k1, b) :: l) k = assocFind l k := by
  simp [assocFind, h]

theorem assocFind_map_of_nodup (f : String × String → Option String) :
    ∀ (mappings : List (String × String)) (pc : String × String),
      (mappings.map Prod.snd).Nodup → pc ∈ mappings →
      assocFind (mappings.map (fun q => (q.2, f q))) pc.2 = some (f pc) := by
  intro mappings
  induction mappings with
  | nil => intro pc _ hmem; simp at hmem
  | cons q rest ih =>
      intro pc hnodup hmem
      simp only [List.map_cons, List.nodup_cons] at hnodup
      by_cases hq : q.2 = pc.2
      · have hpcq : pc = q := by
          rcases List.mem_cons.mp hmem with h | h
          · exact h
          · exact absurd (hq ▸ List.mem_map.mpr ⟨pc, h, rfl⟩) hnodup.1
        subst hpcq
        simp only [List.map_cons]
        exact assocFind_cons_self pc.2 (f pc) _
      · have hpc : pc ∈ rest := by
          rcases List.mem_cons.mp hmem with h | h
          · exact absurd (h ▸ rfl) hq
          · exact h
        simp only [List.map_cons]
        rw [assocFind_cons_ne q.2 pc.2 _ hq]
        exact ih pc hnodup.2 hpc

/-- C5 (amended): for mappings whose column names are pairwise distinct
and distinct from the two built-in columns, the projected row has
exactly the uppercased country code and the country name first and then
one column per mapping in order — N+2 columns — with each mapping's
column holding its resolved value (`None` for an absent resolution,
never an omitted column).  When column names collide, a later mapping
overwrites the earlier column in place and the row has fewer than N+2
columns. -/
theorem parse_country_data_columns (lookupName : String → Option String)
    (mappings : List (String × String)) (gec : String) (json : JVal)
    (hnodup : (mappings.map Prod.snd).Nodup)
    (hcc : "Country Code" ∉ mappings.map Prod.snd)
    (hcn : "Country Name" ∉ mappings.map Prod.snd) :
    (parseCountryData lookupName mappings gec json).map Prod.fst =
        "Country Code" :: "Country Name" :: mappings.map Prod.snd ∧
    (parseCountryData lookupName mappings gec json).length = mappings.length + 2 ∧
    assocFind (parseCountryData lookupName mappings gec json) "Country Code" =
      some (some (pyUpper gec)) ∧
    assocFind (parseCountryData lookupName mappings gec json) "Country Name" =
      some (some (countryDisplayName lookupName gec)) ∧
    (∀ pc ∈ mappings,
      assocFind (parseCountryData lookupName mappings gec json) pc.2 =
        some (resolveField json pc.1)) := by
  have hfresh : ∀ c ∈ mappings.map Prod.snd,
      c ∉ ([("Country Code", some (pyUpper gec)),
            ("Country Name", some (countryDisplayName lookupName gec))] :
          List (String × Option String)).map Prod.fst := by
    intro c hc
    simp only [List.map_cons, List.map_nil, List.mem_cons, List.not_mem_nil]
    rintro (rfl | rfl | h)
    · exact hcc hc
    · exact hcn hc
    · exact h
  have key : parseCountryData lookupName mappings gec json =
      [("Country Code", some (pyUpper gec)),
       ("Country Name", some (countryDisplayName lookupName gec))] ++
        mappings.map (fun pc => (pc.2, resolveField json pc.1)) :=
    foldl_pyDictSet_fresh (fun pc => resolveField json pc.1) mappings _ hfresh hnodup
  refine ⟨?_, ?_, ?_, ?_, ?_⟩
  · rw [key]
    simp [List.map_map]
  · rw [key]
    simp
  · rw [key]
    rfl
  · rw [key]
    exact (assocFind_cons_ne "Country Code" "Country Name" _ (by decide)).trans
      (assocFind_cons_self "Country Name" _ _)
  · intro pc hpc
    have hpc2 : pc.2 ∈ mappings.map Prod.snd := List.mem_map.mpr ⟨pc, hpc, rfl⟩
    have h1 : ("Country Code" : String) ≠ pc.2 := fun h => hcc (by rw [h]; exact hpc2)
    have h2 : ("Country Name" : String) ≠ pc.2 := fun h => hcn (by rw [h]; exact hpc2)
    rw [key]
    exact (assocFind_cons_ne "Country Code" pc.2 _ h1).trans
      ((assocFind_cons_ne "Country Name" pc.2 _ h2).trans
        (assocFind_map_of_nodup (fun pc => resolveField json pc.1) mappings pc hnodup hpc))

theorem parse_country_data_columns_witness :
    ((([("Geography.Location", "Location")] : List (String × String)).map Prod.snd).Nodup ∧
     "Country Code" ∉ ([("Geography.Location", "Location")] : List (String × String)).map Prod.snd ∧
     "Country Name" ∉ ([("Geography.Location", "Location")] : List (String × String)).map Prod.snd) ∧
    (parseCountryData (fun _ => none) [("Geography.Location", "Location")] "fr" JVal.null).length =
      1 + 2 :=
  ⟨⟨by decide, by decide, by decide⟩,
   (parse_country_data_columns (fun _ => none) [("Geography.Location", "Location")] "fr"
     JVal.null (by decide) (by decide) (by decide)).2.1⟩

/-- C5 counterexample: two mappings sharing one column name produce a
three-column row, not the claimed N+2 = 4 columns — the second mapping
overwrites the first one's column in place. -/
theorem duplicate_column_shrinks_row :
    (parseCountryData (fun _ => none) [("a", "Col"), ("b", "Col")] "fr" JVal.null).length = 3 ∧
    (parseCountryData (fun _ => none) [("a", "Col"), ("b", "Col")] "fr" JVal.null).map Prod.fst =
      ["Country Code", "Country Name", "Col"] := by
  constructor <;> decide

theorem foldlM_parse_error (resolve : String → Except String (Option String)) :
    ∀ (mappings : List (String × String)) (init : List (String × Option String)),
      (∃ pc ∈ mappings, ∃ e, resolve pc.1 = Except.error e) →
      ∃ e, mappings.foldlM
          (fun row pc => (resolve pc.1).map (fun v => pyDictSet row pc.2 v)) init =
        Except.error e := by
  intro mappings
  induction mappings with
  | nil => rintro init ⟨pc, hmem, _⟩; simp at hmem
  | cons pc rest ih =>
      rintro init ⟨qc, hmem, e, he⟩
      cases hres : resolve pc.1 with
      | error e1 =>
          refine ⟨e1, ?_⟩
          rw [List.foldlM_cons, hres]
          rfl
      | ok v =>
          have hqrest : qc ∈ rest := by
            rcases List.mem_cons.mp hmem with h | h
            · subst h; rw [hres] at he; exact absurd he (by simp)
            · exact h
          obtain ⟨e2, he2⟩ := ih (pyDictSet init pc.2 v) ⟨qc, hqrest, e, he⟩
          refine ⟨e2, ?_⟩
          rw [List.foldlM_cons, hres]
          exact he2

theorem foldlM_parse_ok (resolve : String → Except String (Option String)) :
    ∀ (mappings : List (String × String)) (init : List (String × Option String)),
      (∀ pc ∈ mappings, ∃ v, resolve pc.1 = Except.ok v) →
      ∃ row, mappings.foldlM
          (fun row pc => (resolve pc.1).map (fun v => pyDictSet row pc.2 v)) init =
        Except.ok row := by
  intro mappings
  induction mappings with
  | nil => intro init _; exact ⟨init, rfl⟩
  | cons pc rest ih =>
      intro init hall
      obtain ⟨v, hv⟩ := hall pc (List.mem_cons_self ..)
      obtain ⟨row, hrow⟩ := ih (pyDictSet init pc.2 v)
        (fun qc hq => hall qc (List.mem_cons_of_mem _ hq))
      refine ⟨row, ?_⟩
      rw [List.foldlM_cons, hv]
      exact hrow

/-- C4 (amended): an exception raised while resolving any single mapping
aborts the WHOLE row's projection — `parse_country_data`'s loop has no
per-column recovery — and the `try/except` in `parse_multiple_countries`
then replaces the row by a two-column fallback holding only the country
code and name; the other mappings' columns are lost.  The exception
never propagates past that catch, and when no resolution fails the full
row is produced. -/
theorem projection_exception_behavior (resolve : String → Except String (Option String))
    (mappings : List (String × String)) (gec : String)
    (lookupName : String → Option String) :
    ((∃ pc ∈ mappings, ∃ e, resolve pc.1 = Except.error e) →
      parseCountryRow resolve mappings gec lookupName =
        [("Country Code", some (pyUpper gec)),
         ("Country Name", some (countryDisplayName lookupName gec))]) ∧
    ((∀ pc ∈ mappings, ∃ v, resolve pc.1 = Except.ok v) →
      parseCountryDataE resolve mappings gec lookupName =
        Except.ok (parseCountryRow resolve mappings gec lookupName)) := by
  constructor
  · intro h
    obtain ⟨e, he⟩ := foldlM_parse_error resolve mappings
      [("Country Code", some (pyUpper gec)),
       ("Country Name", some (countryDisplayName lookupName gec))] h
    have he' : parseCountryDataE resolve mappings gec lookupName = Except.error e := he
    unfold parseCountryRow
    rw [he']
  · intro h
    obtain ⟨row, hrow⟩ := foldlM_parse_ok resolve mappings
      [("Country Code", some (pyUpper gec)),
       ("Country Name", some (countryDisplayName lookupName gec))] h
    have hrow' : parseCountryDataE resolve mappings gec lookupName = Except.ok row := hrow
    unfold parseCountryRow
    rw [hrow']

theorem projection_exception_behavior_witness :
    (∃ pc ∈ ([("good", "G"), ("bad", "B")] : List (String × String)), ∃ e,
        (fun p => if p = "bad" then Except.error "boom" else Except.ok (some "v")) pc.1 =
          (Except.error e : Except String (Option String))) ∧
    parseCountryRow (fun p => if p = "bad" then Except.error "boom" else Except.ok (some "v"))
        [("good", "G"), ("bad", "B")] "fr" (fun _ => none) =
      [("Country Code", some (pyUpper "fr")),
       ("Country Name", some (countryDisplayName (fun _ => none) "fr"))] :=
  ⟨⟨("bad", "B"), by decide, "boom", rfl⟩,
   (projection_exception_behavior
      (fun p => if p = "bad" then Except.error "boom" else Except.ok (some "v"))
      [("good", "G"), ("bad", "B")] "fr" (fun _ => none)).1
    ⟨("bad", "B"), by decide, "boom", rfl⟩⟩

/-- C4 counterexample: with two mappings of which the second's
resolution raises, the produced row is the two-column fallback — the
first mapping's successfully resolvable column `G` is gone, not kept
with its value, and the failing column `B` is not a null cell but
absent. -/
theorem projection_failure_loses_columns :
    parseCountryRow (fun p => if p = "bad" then Except.error "boom" else Except.ok (some "v"))
        [("good", "G"), ("bad", "B")] "fr" (fun _ => none) =
      [("Country Code", some "FR"), ("Country Name", some "FR")] ∧
    assocFind (parseCountryRow
        (fun p => if p = "bad" then Except.error "boom" else Except.ok (some "v"))
        [("good", "G"), ("bad", "B")] "fr" (fun _ => none)) "G" = none := by
  constructor <;> decide

theorem firstSeenAt_append_of_some {h1 : List DetObs} {f : String} {i : Nat}
    (hs : firstSeenAt h1 f = some i) (h2 : List DetObs) :
    firstSeenAt (h1 ++ h2) f = some i := by
  induction h1 generalizing i with
  | nil => simp [firstSeenAt] at hs
  | cons o rest ih =>
      by_cases hf : f ∈ o.paths
      · simp only [firstSeenAt, if_pos hf] at hs
        simp only [List.cons_append, firstSeenAt, if_pos hf]
        exact hs
      · simp only [firstSeenAt, if_neg hf] at hs
        simp only [List.cons_append, firstSeenAt, if_neg hf]
        cases hr : firstSeenAt rest f with
        | none => rw [hr] at hs; simp at hs
        | some j =>
            have ih2 : firstSeenAt (rest.append h2) f = some j := ih hr
            rw [ih2]
            rw [hr] at hs
            exact hs

theorem firstSeenAt_append_of_none {h1 : List DetObs} {f : String}
    (hn : firstSeenAt h1 f = none) (h2 : List DetObs) :
    firstSeenAt (h1 ++ h2) f = (firstSeenAt h2 f).map (· + h1.length) := by
  induction h1 with
  | nil =>
      simp only [List.nil_append, List.length_nil]
      cases firstSeenAt h2 f <;> simp
  | cons o rest ih =>
      by_cases hf : f ∈ o.paths
      · simp [firstSeenAt, if_pos hf] at hn
      · simp only [firstSeenAt, if_neg hf] at hn
        simp only [List.cons_append, firstSeenAt, if_neg hf]
        cases hr : firstSeenAt rest f with
        | none =>
            have ih2 : firstSeenAt (rest.append h2) f =
                (firstSeenAt h2 f).map (fun x => x + rest.length) := ih hr
            rw [ih2]
            cases firstSeenAt h2 f <;> simp [Nat.add_assoc]
        | some j => rw [hr] at hn; simp at hn

theorem firstSeenAt_lt_length {h1 : List DetObs} {f : String} {i : Nat}
    (hs : firstSeenAt h1 f = some i) : i < h1.length := by
  induction h1 generalizing i with
  | nil => simp [firstSeenAt] at hs
  | cons o rest ih =>
      by_cases hf : f ∈ o.paths
      · simp only [firstSeenAt, if_pos hf, Option.some.injEq] at hs
        simp only [List.length_cons]
        omega
      · simp only [firstSeenAt, if_neg hf] at hs
        cases hr : firstSeenAt rest f with
        | none => rw [hr] at hs; simp at hs
        | some j =>
            rw [hr] at hs
            simp at hs
            have := ih hr
            simp only [List.length_cons]
            omega

theorem firstSeenAt_none_iff (h1 : List DetObs) (f : String) :
    firstSeenAt h1 f = none ↔ ∀ o ∈ h1, f ∉ o.paths := by
  induction h1 with
  | nil => simp [firstSeenAt]
  | cons o rest ih =>
      by_cases hf : f ∈ o.paths
      · simp [firstSeenAt, if_pos hf, hf]
      · simp only [firstSeenAt, if_neg hf]
        cases hr : firstSeenAt rest f with
        | none =>
            rw [hr] at ih
            simp [hf]
            exact ih.mp rfl
        | some j =>
            rw [hr] at ih
            constructor
            · intro h; exact absurd h (by simp)
            · intro h
              have := (ih.mpr (fun o' ho' => h o' (List.mem_cons_of_mem _ ho')))
              exact absurd this (by simp)

theorem firstSeenAt_singleton_mem {o : DetObs} {f : String} (hf : f ∈ o.paths) :
    firstSeenAt [o] f = some 0 := by
  simp [firstSeenAt, hf]

theorem assocFind_none_iff {β : Type} (l : List (String × β)) (f : String) :
    assocFind l f = none ↔ f ∉ l.map Prod.fst := by
  induction l with
  | nil => simp [assocFind]
  | cons e rest ih =>
      by_cases he : e.1 = f
      · simp [assocFind, he]
      · simp [assocFind, he, ih, Ne.symm he]

theorem assocFind_append_left {β : Type} {l1 : List (String × β)} {f : String} {b : β}
    (h : assocFind l1 f = some b) (l2 : List (String × β)) :
    assocFind (l1 ++ l2) f = some b := by
  induction l1 with
  | nil => simp [assocFind] at h
  | cons e rest ih =>
      by_cases he : e.1 = f
      · simp only [assocFind, if_pos he] at h
        simpa [List.cons_append, assocFind, if_pos he] using h
      · simp only [assocFind, if_neg he] at h
        simpa [List.cons_append, assocFind, if_neg he] using ih h

theorem assocFind_append_right {β : Type} {l1 : List (String × β)} {f : String}
    (h : assocFind l1 f = none) (l2 : List (String × β)) :
    assocFind (l1 ++ l2) f = assocFind l2 f := by
  induction l1 with
  | nil => simp
  | cons e rest ih =>
      by_cases he : e.1 = f
      · simp [assocFind, if_pos he] at h
      · simp only [assocFind, if_neg he] at h
        simpa [List.cons_append, assocFind, if_neg he] using ih h

theorem assocFind_map_const {β : Type} (c : β) (f : String) :
    ∀ (xs : List String),
      assocFind (xs.map (fun x => (x, c))) f = if f ∈ xs then some c else none := by
  intro xs
  induction xs with
  | nil => simp [assocFind]
  | cons x rest ih =>
      by_cases hx : x = f
      · subst hx
        simp [assocFind]
      · simp [assocFind, hx, ih, Ne.symm hx]

theorem nodupB_iff (l : List String) : nodupB l = true ↔ l.Nodup := by
  induction l with
  | nil => simp [nodupB]
  | cons x rest ih =>
      simp [nodupB, List.nodup_cons, ih, List.elem_iff]

theorem map_fst_tally (paths : List String) (code : String)
    (l : List (String × FieldStats)) :
    ((l.map (fun e =>
      if e.1 ∈ paths then
        (e.1, FieldStats.mk (e.2.present + 1) e.2.missing e.2.missingCountries)
      else
        (e.1, FieldStats.mk e.2.present (e.2.missing + 1)
          (e.2.missingCountries ++ [code])))).map Prod.fst) = l.map Prod.fst := by
  induction l with
  | nil => simp
  | cons e rest ih =>
      by_cases he : e.1 ∈ paths <;> simp [he, ih]

theorem assocFind_tally (paths : List String) (code : String) :
    ∀ (l : List (String × FieldStats)) (f : String),
      assocFind (l.map (fun e =>
        if e.1 ∈ paths then
          (e.1, FieldStats.mk (e.2.present + 1) e.2.missing e.2.missingCountries)
        else
          (e.1, FieldStats.mk e.2.present (e.2.missing + 1)
            (e.2.missingCountries ++ [code])))) f =
      (assocFind l f).map (fun s =>
        if f ∈ paths then FieldStats.mk (s.present + 1) s.missing s.missingCountries
        else FieldStats.mk s.present (s.missing + 1) (s.missingCountries ++ [code])) := by
  intro l
  induction l with
  | nil => intro f; simp [assocFind]
  | cons e rest ih =>
      intro f
      by_cases hef : e.1 = f
      · subst hef
        by_cases hp : e.1 ∈ paths
        · simp [assocFind, hp]
        · simp [assocFind, hp]
      · by_cases hp : e.1 ∈ paths
        · simp [assocFind, hp, hef, ih]
        · simp [assocFind, hp, hef, ih]

theorem updateFieldCoverage_keys (st : List (String × FieldStats)) (paths : List String)
    (code : String) (ord : List String) :
    (updateFieldCoverage st paths code ord).map Prod.fst =
      st.map Prod.fst ++ ord.filter (fun f => !(st.any (fun e => e.1 = f))) := by
  unfold updateFieldCoverage
  rw [map_fst_tally]
  rw [List.map_append, List.map_map]
  rw [show (Prod.fst ∘ fun f : String => (f, FieldStats.mk 0 0 [])) = id from rfl]
  rw [List.map_id]

theorem updateFieldCoverage_find (st : List (String × FieldStats)) (paths : List String)
    (code : String) (ord : List String) (f : String) :
    assocFind (updateFieldCoverage st paths code ord) f =
      (assocFind (st ++ (ord.filter (fun f => !(st.any (fun e => e.1 = f)))).map
          (fun f => (f, FieldStats.mk 0 0 []))) f).map
        (fun s =>
          if f ∈ paths then FieldStats.mk (s.present + 1) s.missing s.missingCountries
          else FieldStats.mk s.present (s.missing + 1) (s.missingCountries ++ [code])) := by
  unfold updateFieldCoverage
  exact assocFind_tally paths code _ f

theorem any_key_iff (st : List (String × FieldStats)) (f : String) :
    (st.any (fun e => e.1 = f)) = true ↔ f ∈ st.map Prod.fst := by
  simp [List.any_eq_true, List.mem_map]

theorem update_preserves_consistency (hist : List DetObs) (st : List (String × FieldStats))
    (o : DetObs) (hc : StateConsistent hist st)
    (hvo : validOrderB st o.paths o.order = true) :
    StateConsistent (hist ++ [o])
      (updateFieldCoverage st o.paths o.country o.order) := by
  obtain ⟨hnd, hkeys, hstats⟩ := hc
  simp only [validOrderB, Bool.and_eq_true, List.all_eq_true] at hvo
  obtain ⟨⟨⟨hvNodup, hvSub⟩, hvKeys⟩, hvPaths⟩ := hvo
  have ordNodup : o.order.Nodup := (nodupB_iff o.order).mp hvNodup
  have hkeysEq := updateFieldCoverage_keys st o.paths o.country o.order
  have newsMem : ∀ f, f ∈ o.order.filter (fun f => !(st.any (fun e => e.1 = f))) ↔
      (f ∈ o.order ∧ f ∉ st.map Prod.fst) := by
    intro f
    rw [List.mem_filter]
    constructor
    · rintro ⟨h1, h2⟩
      refine ⟨h1, fun hmem => ?_⟩
      rw [← any_key_iff] at hmem
      simp [hmem] at h2
    · rintro ⟨h1, h2⟩
      refine ⟨h1, ?_⟩
      rw [← any_key_iff] at h2
      have h3 : (st.any fun e => e.1 = f) = false := by
        cases hb : (st.any fun e => e.1 = f)
        · rfl
        · exact absurd hb h2
      simp [h3]
  refine ⟨?_, ?_, ?_⟩
  · rw [hkeysEq, List.nodup_append]
    refine ⟨hnd, List.Nodup.filter _ ordNodup, ?_⟩
    intro a ha hb
    exact ((newsMem a).mp hb).2 ha
  · intro f
    rw [hkeysEq, List.mem_append, newsMem f]
    constructor
    · rintro (h | ⟨hord, hnotkey⟩)
      · obtain ⟨o', ho', hfo⟩ := (hkeys f).mp h
        exact ⟨o', List.mem_append_left _ ho', hfo⟩
      · have := hvSub f hord
        rw [Bool.or_eq_true] at this
        rcases this with h1 | h1
        · exact absurd ((any_key_iff st f).mp h1) hnotkey
        · exact ⟨o, by simp, (List.elem_iff).mp h1⟩
    · rintro ⟨o', ho', hfo⟩
      rcases List.mem_append.mp ho' with h | h
      · exact Or.inl ((hkeys f).mpr ⟨o', h, hfo⟩)
      · have : o' = o := by simpa using h
        subst this
        by_cases hmem : f ∈ st.map Prod.fst
        · exact Or.inl hmem
        · exact Or.inr ⟨(List.elem_iff).mp (hvPaths f hfo), hmem⟩
  · intro f s' hfind
    rw [updateFieldCoverage_find] at hfind
    cases hsn : assocFind (st ++ (o.order.filter (fun f => !(st.any (fun e => e.1 = f)))).map
        (fun f => (f, FieldStats.mk 0 0 []))) f with
    | none => rw [hsn] at hfind; simp at hfind
    | some s =>
        rw [hsn] at hfind
        simp only [Option.map_some'] at hfind
        cases hst : assocFind st f with
        | some s0 =>
            have hss0 : s = s0 := by
              rw [assocFind_append_left hst] at hsn
              injection hsn with h
              exact h.symm
            subst hss0
            obtain ⟨hp, i, hi, hsum⟩ := hstats f s hst
            have hilt : i < hist.length := firstSeenAt_lt_length hi
            by_cases hfp : f ∈ o.paths
            · rw [if_pos hfp] at hfind
              injection hfind with hfind2
              refine ⟨?_, i, firstSeenAt_append_of_some hi [o], ?_⟩
              · rw [← hfind2]
                simp [List.countP_append, List.countP_cons, hfp, hp]
              · rw [← hfind2]
                simp only [List.length_append, List.length_singleton]
                show s.present + 1 + s.missing = hist.length + 1 - i
                omega
            · rw [if_neg hfp] at hfind
              injection hfind with hfind2
              refine ⟨?_, i, firstSeenAt_append_of_some hi [o], ?_⟩
              · rw [← hfind2]
                simp [List.countP_append, List.countP_cons, hfp, hp]
              · rw [← hfind2]
                simp only [List.length_append, List.length_singleton]
                show s.present + (s.missing + 1) = hist.length + 1 - i
                omega
        | none =>
            have hsn2 : assocFind ((o.order.filter
                (fun f => !(st.any (fun e => e.1 = f)))).map
                  (fun f => (f, FieldStats.mk 0 0 []))) f = some s := by
              rw [assocFind_append_right hst] at hsn
              exact hsn
            rw [assocFind_map_const] at hsn2
            by_cases hmem : f ∈ o.order.filter (fun f => !(st.any (fun e => e.1 = f)))
            · rw [if_pos hmem] at hsn2
              have hs0 : s = FieldStats.mk 0 0 [] := by
                injection hsn2 with h
                exact h.symm
              subst hs0
              obtain ⟨hord, hnotkey⟩ := (newsMem f).mp hmem
              have hfp : f ∈ o.paths := by
                have := hvSub f hord
                rw [Bool.or_eq_true] at this
                rcases this with h1 | h1
                · exact absurd ((any_key_iff st f).mp h1) hnotkey
                · exact (List.elem_iff).mp h1
              rw [if_pos hfp] at hfind
              injection hfind with hfind2
              have hnohist : ∀ o' ∈ hist, f ∉ o'.paths := by
                intro o' ho' hfo
                exact hnotkey ((hkeys f).mpr ⟨o', ho', hfo⟩)
              have hcount0 : hist.countP (fun o => f ∈ o.paths) = 0 := by
                rw [List.countP_eq_zero]
                intro o' ho'
                simpa using hnohist o' ho'
              have hfirst : firstSeenAt (hist ++ [o]) f = some hist.length := by
                rw [firstSeenAt_append_of_none ((firstSeenAt_none_iff hist f).mpr hnohist)]
                rw [firstSeenAt_singleton_mem hfp]
                simp
              refine ⟨?_, hist.length, hfirst, ?_⟩
              · rw [← hfind2]
                simp [List.countP_append, List.countP_cons, hfp, hcount0]
              · rw [← hfind2]
                simp
            · rw [if_neg hmem] at hsn2
              exact absurd hsn2 (by simp)

theorem consistent_foldl :
    ∀ (obs : List DetObs) (hist : List DetObs) (st : List (String × FieldStats)),
      StateConsistent hist st → validRunFromB st obs = true →
      StateConsistent (hist ++ obs)
        (obs.foldl (fun st o => updateFieldCoverage st o.paths o.country o.order) st) := by
  intro obs
  induction obs with
  | nil =>
      intro hist st hc _
      simpa using hc
  | cons o rest ih =>
      intro hist st hc hv
      simp only [validRunFromB, Bool.and_eq_true] at hv
      have step := update_preserves_consistency hist st o hc hv.1
      have := ih (hist ++ [o]) (updateFieldCoverage st o.paths o.country o.order) step hv.2
      simpa [List.append_assoc] using this

theorem runDetailed_consistent (obs : List DetObs) (hv : validRunB obs = true) :
    StateConsistent obs (runDetailed obs) := by
  have base : StateConsistent [] [] := by
    refine ⟨List.nodup_nil, ?_, ?_⟩
    · intro f; simp
    · intro f s hfs; simp [assocFind] at hfs
  simpa using consistent_foldl obs [] [] base hv

/-- C2 (amended): the detailed aggregator keeps NO retroactive absences.
After any legal run, every tracked field's present tally counts exactly
the successful records containing it, and present + missing spans only
the records processed since the field was first observed — so a field
first observed at (0-based) index i has absent-tally equal to
(records since first observation) − (present tally), which is smaller
than (records processed so far) − (present tally) whenever i > 0. -/
theorem detailed_tally_invariant (obs : List DetObs) (hv : validRunB obs = true) :
    ∀ f s, assocFind (runDetailed obs) f = some s →
      s.present = obs.countP (fun o => f ∈ o.paths) ∧
      ∃ i, firstSeenAt obs f = some i ∧ s.present + s.missing = obs.length - i := by
  intro f s hfs
  exact (runDetailed_consistent obs hv).2.2 f s hfs

theorem detailed_tally_invariant_witness :
    validRunB [DetObs.mk ["a"] "c1" ["a"], DetObs.mk ["a", "b"] "c2" ["a", "b"]] = true ∧
    assocFind (runDetailed
        [DetObs.mk ["a"] "c1" ["a"], DetObs.mk ["a", "b"] "c2" ["a", "b"]]) "b" =
      some (FieldStats.mk 1 0 []) ∧
    ((FieldStats.mk 1 0 []).present =
        List.countP (fun o => "b" ∈ o.paths)
          [DetObs.mk ["a"] "c1" ["a"], DetObs.mk ["a", "b"] "c2" ["a", "b"]] ∧
      ∃ i, firstSeenAt [DetObs.mk ["a"] "c1" ["a"], DetObs.mk ["a", "b"] "c2" ["a", "b"]] "b" =
          some i ∧
        (FieldStats.mk 1 0 []).present + (FieldStats.mk 1 0 []).missing = 2 - i) :=
  ⟨by decide, by decide,
   detailed_tally_invariant
     [DetObs.mk ["a"] "c1" ["a"], DetObs.mk ["a", "b"] "c2" ["a", "b"]] (by decide)
     "b" (FieldStats.mk 1 0 []) (by decide)⟩

/-- C2 counterexample: in a legal two-record run where field `b` first
appears in the second record, `b` carries no retroactive absence for the
first record: its absent tally is 0, not the claimed
(records processed) − (present tally) = 2 − 1 = 1. -/
theorem late_field_no_retroactive_absence :
    validRunB [DetObs.mk ["a"] "c1" ["a"], DetObs.mk ["a", "b"] "c2" ["a", "b"]] = true ∧
    assocFind (runDetailed
        [DetObs.mk ["a"] "c1" ["a"], DetObs.mk ["a", "b"] "c2" ["a", "b"]]) "b" =
      some (FieldStats.mk 1 0 []) ∧
    (FieldStats.mk 1 0 []).missing ≠ 2 - (FieldStats.mk 1 0 []).present := by
  refine ⟨by decide, by decide, by decide⟩

theorem assocFind_calcStats : ∀ (st : List (String × FieldStats)) (f : String),
    assocFind (calculateCoverageStats st) f =
      (assocFind st f).map (fun s =>
        (s, roundTo1 (coveragePct s), classifyFieldTier (coveragePct s))) := by
  intro st
  induction st with
  | nil => intro f; simp [calculateCoverageStats, assocFind]
  | cons e rest ih =>
      intro f
      obtain ⟨k, sv⟩ := e
      by_cases hef : k = f
      · simp [calculateCoverageStats, assocFind, hef]
      · simp only [calculateCoverageStats, List.map_cons]
        rw [assocFind_cons_ne k f _ hef]
        rw [assocFind_cons_ne k f _ hef]
        simpa [calculateCoverageStats] using ih f

/-- C1 (amended): in the detailed report, a field first observed at
(0-based) record index i out of N successful records, present in k of
them, carries coverage_pct = round(100 * k / (N − i), 1) — the
denominator is the number of records SINCE the field's first
observation (equal to N only when i = 0) — and the tier is classified
from the UNROUNDED percentage 100 * k / (N − i): universal iff it is
at least 95, common iff at least 70 and below 95, partial below 70.
The rounded value the report carries plays no role in the tier. -/
theorem coverage_entry_value (obs : List DetObs) (f : String) (s : FieldStats) (i : Nat)
    (hv : validRunB obs = true)
    (hlook : assocFind (runDetailed obs) f = some s)
    (hfirst : firstSeenAt obs f = some i) :
    assocFind (calculateCoverageStats (runDetailed obs)) f =
      some (s,
        roundTo1 ((obs.countP (fun o => f ∈ o.paths) : ℚ) /
          ((obs.length - i : ℕ) : ℚ) * 100),
        classifyFieldTier ((obs.countP (fun o => f ∈ o.paths) : ℚ) /
          ((obs.length - i : ℕ) : ℚ) * 100)) := by
  obtain ⟨hp, j, hj, hsum⟩ := (runDetailed_consistent obs hv).2.2 f s hlook
  have hij : j = i := by
    rw [hj] at hfirst
    injection hfirst
  subst hij
  have hilt : j < obs.length := firstSeenAt_lt_length hj
  rw [assocFind_calcStats, hlook]
  simp only [Option.map_some']
  have hpct : coveragePct s =
      (obs.countP (fun o => f ∈ o.paths) : ℚ) / ((obs.length - j : ℕ) : ℚ) * 100 := by
    rw [coveragePct, if_pos (by omega)]
    have h2 : (s.present : ℚ) + (s.missing : ℚ) = ((obs.length - j : ℕ) : ℚ) := by
      exact_mod_cast hsum
    rw [h2, hp]
  rw [hpct]

theorem coverage_entry_value_witness :
    validRunB sampleRunLate = true ∧
    assocFind (runDetailed sampleRunLate) "b" = some (FieldStats.mk 1 0 []) ∧
    firstSeenAt sampleRunLate "b" = some 1 ∧
    assocFind (calculateCoverageStats (runDetailed sampleRunLate)) "b" =
      some (FieldStats.mk 1 0 [],
        roundTo1 ((sampleRunLate.countP (fun o => "b" ∈ o.paths) : ℚ) /
          ((sampleRunLate.length - 1 : ℕ) : ℚ) * 100),
        classifyFieldTier ((sampleRunLate.countP (fun o => "b" ∈ o.paths) : ℚ) /
          ((sampleRunLate.length - 1 : ℕ) : ℚ) * 100)) :=
  ⟨by decide, by decide, by decide,
   coverage_entry_value sampleRunLate "b" (FieldStats.mk 1 0 []) 1
     (by decide) (by decide) (by decide)⟩

set_option maxRecDepth 8000 in
/-- C1 counterexample, two parts.  First: in the two-record run where
`b` appears only in the second record (k = 1, N = 2), the claim demands
coverage_pct = round(100 * 1 / 2, 1) = 50.0, but the report carries
100.0 with tier `universal` (the denominator only spans the records
since `b` was first seen).  Second: in the 119-record run with `a`
present 113 times from the start, the claim demands that the carried
coverage_pct 95.0 (≥ 95.0) come with tier `universal`, but the tier is
computed from the unrounded 11300/119 ≈ 94.96 and is `common`. -/
theorem coverage_pct_tier_counterexample :
    (validRunB sampleRunLate = true ∧
     assocFind (calculateCoverageStats (runDetailed sampleRunLate)) "b" =
       some (FieldStats.mk 1 0 [], (100 : ℚ), "universal") ∧
     roundTo1 (100 * 1 / 2) = (50 : ℚ) ∧ (100 : ℚ) ≠ 50) ∧
    (validRunB sampleRunRound = true ∧
     assocFind (calculateCoverageStats (runDetailed sampleRunRound)) "a" =
       some (FieldStats.mk 113 6 (List.replicate 6 "c"), (95 : ℚ), "common") ∧
     (95 : ℚ) ≥ 95 ∧ ("common" : String) ≠ "universal") := by
  refine ⟨⟨by decide, ?_, ?_, by norm_num⟩, ⟨by decide, ?_, by norm_num, by decide⟩⟩
  · have hb : assocFind (runDetailed sampleRunLate) "b" = some (FieldStats.mk 1 0 []) := by
      decide
    rw [assocFind_calcStats, hb]
    simp only [Option.map_some']
    have h1 : coveragePct (FieldStats.mk 1 0 []) = 100 := by
      rw [coveragePct]
      norm_num
    have h2 : roundTo1 (100 : ℚ) = 100 := by
      rw [roundTo1]
      norm_num [round_eq]
    rw [h1, h2, classifyFieldTier, if_pos (by norm_num)]
  · rw [roundTo1]
    norm_num [round_eq]
  · have ha : assocFind (runDetailed sampleRunRound) "a" =
        some (FieldStats.mk 113 6 (List.replicate 6 "c")) := by
      decide
    rw [assocFind_calcStats, ha]
    simp only [Option.map_some']
    have h1 : coveragePct (FieldStats.mk 113 6 (List.replicate 6 "c")) = 11300 / 119 := by
      rw [coveragePct]
      norm_num
    have h2 : roundTo1 ((11300 : ℚ) / 119) = 95 := by
      rw [roundTo1]
      norm_num [round_eq]
    have h3 : classifyFieldTier ((11300 : ℚ) / 119) = "common" := by
      rw [classifyFieldTier, if_neg (by norm_num), if_pos (by norm_num)]
    rw [h1, h2, h3]

theorem any_fst_iff {β : Type} (st : List (String × β)) (f : String) :
    (st.any (fun e => e.1 = f)) = true ↔ f ∈ st.map Prod.fst := by
  simp [List.any_eq_true, List.mem_map]

theorem mem_insertDescBy {α : Type} (key : α → ℚ) (x : α) :
    ∀ (l : List α) (a : α), a ∈ insertDescBy key x l ↔ a = x ∨ a ∈ l := by
  intro l
  induction l with
  | nil => intro a; simp [insertDescBy]
  | cons y ys ih =>
      intro a
      rw [insertDescBy]
      by_cases h : key y > key x
      · rw [if_pos h]
        simp only [List.mem_cons, ih]
        tauto
      · rw [if_neg h]
        simp only [List.mem_cons]

theorem pairwise_insertDescBy {α : Type} (key : α → ℚ) (x : α) :
    ∀ (l : List α), l.Pairwise (fun a b => key b ≤ key a) →
      (insertDescBy key x l).Pairwise (fun a b => key b ≤ key a) := by
  intro l
  induction l with
  | nil => intro _; simp [insertDescBy]
  | cons y ys ih =>
      intro hp
      rw [List.pairwise_cons] at hp
      obtain ⟨hy, hys⟩ := hp
      rw [insertDescBy]
      by_cases h : key y > key x
      · rw [if_pos h]
        rw [List.pairwise_cons]
        constructor
        · intro a ha
          rcases (mem_insertDescBy key x ys a).mp ha with rfl | ha
          · exact le_of_lt h
          · exact hy a ha
        · exact ih hys
      · rw [if_neg h]
        rw [List.pairwise_cons]
        constructor
        · intro a ha
          rcases List.mem_cons.mp ha with rfl | ha
          · exact le_of_not_lt h
          · exact le_trans (hy a ha) (le_of_not_lt h)
        · exact List.pairwise_cons.mpr ⟨hy, hys⟩

theorem stableSortDescBy_pairwise {α : Type} (key : α → ℚ) (l : List α) :
    (stableSortDescBy key l).Pairwise (fun a b => key b ≤ key a) := by
  induction l with
  | nil => simp [stableSortDescBy]
  | cons x xs ih => exact pairwise_insertDescBy key x _ ih

theorem filter_insertDescBy {α : Type} (key : α → ℚ) (q : ℚ) (x : α) :
    ∀ (l : List α),
      (insertDescBy key x l).filter (fun a => key a = q) =
        (x :: l).filter (fun a => key a = q) := by
  intro l
  induction l with
  | nil => simp [insertDescBy]
  | cons y ys ih =>
      rw [insertDescBy]
      by_cases h : key y > key x
      · rw [if_pos h]
        by_cases hx : key x = q
        · have hy : ¬(key y = q) := by
            intro he
            rw [he, hx] at h
            exact lt_irrefl q h
          simp [List.filter_cons, hx, hy, ih]
        · by_cases hy : key y = q
          · simp [List.filter_cons, hx, hy, ih]
          · simp [List.filter_cons, hx, hy, ih]
      · rw [if_neg h]

theorem stableSortDescBy_filter {α : Type} (key : α → ℚ) (q : ℚ) (l : List α) :
    (stableSortDescBy key l).filter (fun a => key a = q) =
      l.filter (fun a => key a = q) := by
  induction l with
  | nil => rfl
  | cons x xs ih =>
      rw [show stableSortDescBy key (x :: xs) =
          insertDescBy key x (stableSortDescBy key xs) from rfl]
      rw [filter_insertDescBy key q x (stableSortDescBy key xs)]
      by_cases hx : key x = q
      · simp [List.filter_cons, hx, ih]
      · simp [List.filter_cons, hx, ih]

theorem map_fst_update {β : Type} (f : String) (g : β → β) (st : List (String × β)) :
    (st.map (fun e => if e.1 = f then (e.1, g e.2) else e)).map Prod.fst =
      st.map Prod.fst := by
  induction st with
  | nil => simp
  | cons e rest ih => by_cases he : e.1 = f <;> simp [he, ih]

theorem simpleBump_keys (st : List (String × Nat)) (f : String) :
    (simpleBump st f).map Prod.fst =
      if (st.map Prod.fst).contains f then st.map Prod.fst
      else st.map Prod.fst ++ [f] := by
  rw [simpleBump]
  by_cases h : st.any (fun e => e.1 = f) = true
  · rw [if_pos h]
    have hmem : f ∈ st.map Prod.fst := (any_fst_iff st f).mp h
    rw [if_pos (List.elem_iff.mpr hmem)]
    exact map_fst_update f (fun n => n + 1) st
  · rw [if_neg h]
    have hmem : f ∉ st.map Prod.fst := fun hm => h ((any_fst_iff st f).mpr hm)
    rw [if_neg (fun hc => hmem (List.elem_iff.mp hc))]
    simp

theorem simpleObserve_keys :
    ∀ (paths : List String) (st : List (String × Nat)),
      (simpleObserve st paths).map Prod.fst =
        paths.foldl (fun acc a => if acc.contains a then acc else acc ++ [a])
          (st.map Prod.fst) := by
  intro paths
  induction paths with
  | nil => intro st; rfl
  | cons p rest ih =>
      intro st
      simp only [simpleObserve, List.foldl_cons]
      rw [show rest.foldl simpleBump (simpleBump st p) =
          simpleObserve (simpleBump st p) rest from rfl]
      rw [ih (simpleBump st p), simpleBump_keys]

theorem runSimple_keys (obs : List (List String)) :
    (runSimple obs).map Prod.fst = firstDedup obs.flatten := by
  suffices h : ∀ (obs2 : List (List String)) (st : List (String × Nat)),
      (obs2.foldl simpleObserve st).map Prod.fst =
        obs2.flatten.foldl (fun acc a => if acc.contains a then acc else acc ++ [a])
          (st.map Prod.fst) by
    simpa [runSimple, firstDedup] using h obs []
  intro obs2
  induction obs2 with
  | nil => intro st; rfl
  | cons paths rest ih =>
      intro st
      simp only [List.foldl_cons, List.flatten_cons, List.foldl_append]
      rw [ih (simpleObserve st paths), simpleObserve_keys]

theorem simpleFieldsData_paths (obs : List (List String)) :
    (simpleFieldsData obs).map (fun r => r.2.1) = (runSimple obs).map Prod.fst := by
  rw [simpleFieldsData, List.map_map]
  rfl

/-- C8 (amended): both report shapes sort by descending (rounded)
coverage percentage with Python's stable sort, so ties keep the order
of the pre-sort field list.  For the simplified report that list is the
`field_presence` dict in first-discovery order, so ties land in
discovery order as claimed.  For the detailed report ties keep the
`field_coverage` dict's key-insertion order — and fields first
discovered in the SAME record are inserted while iterating a Python
set, whose order is unspecified, so their tie order is not the
discovery order in general. -/
theorem report_sorting_behavior :
    (∀ obs : List (List String),
        (simpleReportFields obs).Pairwise (fun a b => b.2.2 ≤ a.2.2)) ∧
    (∀ (obs : List (List String)) (q : ℚ),
        (simpleReportFields obs).filter (fun a => a.2.2 = q) =
          (simpleFieldsData obs).filter (fun a => a.2.2 = q)) ∧
    (∀ obs : List (List String),
        (simpleFieldsData obs).map (fun r => r.2.1) = firstDedup obs.flatten) ∧
    (∀ obs : List DetObs,
        (detailedReportFields obs).Pairwise (fun a b => b.2.2.1 ≤ a.2.2.1)) ∧
    (∀ (obs : List DetObs) (q : ℚ),
        (detailedReportFields obs).filter (fun a => a.2.2.1 = q) =
          (calculateCoverageStats (runDetailed obs)).filter (fun a => a.2.2.1 = q)) :=
  ⟨fun _ => stableSortDescBy_pairwise _ _,
   fun _ q => stableSortDescBy_filter _ q _,
   fun obs => by rw [simpleFieldsData_paths, runSimple_keys],
   fun _ => stableSortDescBy_pairwise _ _,
   fun _ q => stableSortDescBy_filter _ q _⟩

/-- C8 counterexample: one legal run of a single record whose two paths
are discovered in the order `a`, `b` while the `all_fields` set happens
to iterate as `b`, `a`.  Both fields tie at full coverage, and the
detailed report lists `b` before `a` — not the discovery order the
claim promises. -/
theorem detailed_tie_order_not_discovery :
    validRunB [DetObs.mk ["a", "b"] "c" ["b", "a"]] = true ∧
    (detailedReportFields [DetObs.mk ["a", "b"] "c" ["b", "a"]]).map Prod.fst = ["b", "a"] ∧
    firstDedup (([DetObs.mk ["a", "b"] "c" ["b", "a"]].map DetObs.paths).flatten) = ["a", "b"] ∧
    (["b", "a"] : List String) ≠ ["a", "b"] := by
  refine ⟨by decide, ?_, by decide, by decide⟩
  have hrun : runDetailed [DetObs.mk ["a", "b"] "c" ["b", "a"]] =
      [("b", FieldStats.mk 1 0 []), ("a", FieldStats.mk 1 0 [])] := by decide
  rw [detailedReportFields, hrun]
  simp [calculateCoverageStats, stableSortDescBy, insertDescBy, lt_irrefl]
